import Mathlib

/-!
Order book (`orderbook.go`): a shallow embedding

The Go program keeps `*Order` and `*Limit` values behind pointers that are shared
between the book's slices, its maps and the orders' back-references.  The embedding
makes that sharing explicit: a `Heap` holds every `Order` and every `Limit`, a pointer
is an index into the heap, and each Go function becomes a function on the heap (and
the book).  An index that addresses nothing is the nil pointer: dereferencing it is
the Go nil-pointer panic and yields `none`, and comparing it with `nil` succeeds.

`float64` is the type `F64` of IEEE 754 binary64 values: finite values with 53
significant bits (subnormals included), the two infinities and NaN.  `+` and `-` round
to nearest, ties to even, and overflow to an infinity; `<`, `<=` and `F64.eq` (Go's
`==`, also the key comparison of a Go map) are false on NaN.  The two zeros are one
value and all NaNs are one value: the code never divides, never reads a sign or a NaN
payload, and `==` equates the zeros.  `Timestamp` is an `Int`; the clock read by
`NewOrder` is an argument.  The library call `sort.Sort` in `DeleteOrder` is an argument
too, of which the theorems assume only the library's contract (`SortContract`);
`sortByTimestamp` is the instance used to evaluate.
-/

namespace OB

/-! ## `float64` -/

/-- Number of halvings that take `n` below 2, at most `fuel` of them. -/
def lgAux : Nat → Nat → Nat
  | 0, _ => 0
  | fuel + 1, n => if 2 ≤ n then lgAux fuel (n / 2) + 1 else 0

/-- Binary search, in `steps` steps, for the `L` in `[lo, lo + 2^steps)` with
`2^L ≤ n < 2^(L+1)`. -/
def lgSearch : Nat → Nat → Nat → Nat
  | 0, lo, _ => lo
  | s + 1, lo, n => if 2 ^ (lo + 2 ^ s) ≤ n then lgSearch s (lo + 2 ^ s) n else lgSearch s lo n

/-- Position of the leading bit of `n` (0 for `n = 0`). -/
def lg (n : Nat) : Nat :=
  if n = 0 then 0 else if n < 2 ^ 2 ^ 12 then lgSearch 12 0 n else lgAux n n

/-- Round the natural number `n` to 53 significant bits, to nearest, ties to even:
`k` low bits are dropped, `q` is what stays and `r` what is dropped. -/
def roundNat (n : Nat) : Nat :=
  let k := lg n - 52
  let q := n / 2 ^ k
  let r := n % 2 ^ k
  if 2 * r < 2 ^ k then q * 2 ^ k
  else if 2 ^ k < 2 * r then (q + 1) * 2 ^ k
  else if q % 2 = 0 then q * 2 ^ k
  else (q + 1) * 2 ^ k

/-- Round an integer to 53 significant bits, symmetrically in the sign. -/
def roundInt (z : Int) : Int :=
  if z < 0 then -(roundNat z.natAbs : Int) else (roundNat z.natAbs : Int)

/-- Whether `z` units of `2^-1074` (the smallest positive `float64`) is a finite `float64`:
`z` has at most 53 significant bits (rounding leaves it alone) and its leading bit is below
position 2098, so the value lies below `2^1024`. -/
def IsF64 (z : Int) : Prop := roundInt z = z ∧ lg z.natAbs < 2098

instance (z : Int) : Decidable (IsF64 z) := by
  unfold IsF64; infer_instance

/-- A `float64` value.  A finite value is given by the integer `z` of its units of
`2^-1074`, with the evidence that it is one.  Every finite `float64` is such a `z`, and
there is one zero. -/
inductive F64 where
  | fin (z : Int) (ok : IsF64 z)
  | inf (neg : Bool)
  | nan
deriving DecidableEq

/-- The `float64` nearest to `z` units of `2^-1074` (ties to even); an infinity when the
rounded value reaches `2^1024`.  (The rounded value always has at most 53 significant
bits, `roundInt_idem`, so the test is that of the range.) -/
def F64.round (z : Int) : F64 :=
  if h : IsF64 (roundInt z) then F64.fin (roundInt z) h
  else F64.inf (decide (z < 0))

/-- The `float64` nearest to the integer `n` (Go's conversion of an integer constant). -/
def F64.ofInt (n : Int) : F64 := F64.round (n * 2 ^ 1074)

instance (n : Nat) : OfNat F64 n := ⟨F64.ofInt n⟩

/-- Go `a + b` on `float64`. -/
def F64.add : F64 → F64 → F64
  | .nan, _ => .nan
  | _, .nan => .nan
  | .inf s, .inf t => if s = t then .inf s else .nan
  | .inf s, .fin _ _ => .inf s
  | .fin _ _, .inf t => .inf t
  | .fin a _, .fin b _ => F64.round (a + b)

/-- Go `a - b` on `float64`. -/
def F64.sub : F64 → F64 → F64
  | .nan, _ => .nan
  | _, .nan => .nan
  | .inf s, .inf t => if s = t then .nan else .inf s
  | .inf s, .fin _ _ => .inf s
  | .fin _ _, .inf t => .inf (!t)
  | .fin a _, .fin b _ => F64.round (a - b)

/-- Go `a < b` on `float64`. -/
def F64.lt : F64 → F64 → Bool
  | .nan, _ => false
  | _, .nan => false
  | .inf s, .inf t => s && !t
  | .inf s, .fin _ _ => s
  | .fin _ _, .inf t => !t
  | .fin a _, .fin b _ => decide (a < b)

/-- Go `a <= b` on `float64`. -/
def F64.le : F64 → F64 → Bool
  | .nan, _ => false
  | _, .nan => false
  | .inf s, .inf t => s || !t
  | .inf s, .fin _ _ => s
  | .fin _ _, .inf t => !t
  | .fin a _, .fin b _ => decide (a ≤ b)

/-- Go `a == b` on `float64`, which is also how a Go map compares `float64` keys: NaN
equals nothing, itself included. -/
def F64.eq : F64 → F64 → Bool
  | .nan, _ => false
  | _, .nan => false
  | a, b => decide (a = b)

instance : Add F64 := ⟨F64.add⟩

instance : Sub F64 := ⟨F64.sub⟩

instance : LT F64 := ⟨fun a b => F64.lt a b = true⟩

instance : LE F64 := ⟨fun a b => F64.le a b = true⟩

instance (a b : F64) : Decidable (a < b) := inferInstanceAs (Decidable (F64.lt a b = true))

instance (a b : F64) : Decidable (a ≤ b) := inferInstanceAs (Decidable (F64.le a b = true))

/-- The `float64` sum of a list taken from the left, starting at 0: what repeated `+=`
computes. -/
def F64.sum (l : List F64) : F64 := l.foldl (fun acc x => acc + x) 0

/-- Whether a `float64` is finite. -/
def F64.isFin : F64 → Bool
  | .fin _ _ => true
  | _ => false

/-- The exact value of a finite `float64`, in units of `2^-1074` (0 for the others). -/
def F64.units : F64 → Int
  | .fin z _ => z
  | _ => 0

/-- Whether `a + b` is computed without rounding: the operands and the `float64` result
are finite, and the result's units are the sum of the operands' units. -/
def F64.addExact (a b : F64) : Prop :=
  a.isFin = true ∧ b.isFin = true ∧ (a + b).isFin = true ∧ (a + b).units = a.units + b.units

/-- Whether `a - b` is computed without rounding: the operands and the `float64` result
are finite, and the result's units are the difference of the operands' units. -/
def F64.subExact (a b : F64) : Prop :=
  a.isFin = true ∧ b.isFin = true ∧ (a - b).isFin = true ∧ (a - b).units = a.units - b.units

instance (a b : F64) : Decidable (F64.addExact a b) := by
  unfold F64.addExact; infer_instance

instance (a b : F64) : Decidable (F64.subExact a b) := by
  unfold F64.subExact; infer_instance

/-! ## The program -/

/-- A `*Order`: an index into `Heap.orders`. -/
abbrev OrderRef := Nat

/-- A `*Limit`: an index into `Heap.limits`. -/
abbrev LimitRef := Nat

/-- Go `type Match struct` (an order pointer may be nil). -/
structure Match where
  Ask : Option OrderRef
  Bid : Option OrderRef
  SizeFilled : F64
  Price : F64
deriving DecidableEq

/-- Go `type Order struct`. -/
structure Order where
  Size : F64
  Bid : Bool
  Limit : Option LimitRef
  Timestamp : Int
deriving DecidableEq

/-- Go `type Limit struct`; `Orders` is the slice of order pointers. -/
structure Limit where
  Price : F64
  Orders : List OrderRef
  TotalVolume : F64
deriving DecidableEq

/-- Go `map[float64]*Limit`, as an association list in the order the keys were first
stored, with at most one entry per key that is not NaN (NaN `==` no key, so every write
under NaN adds an entry). -/
abbrev LimitMap := List (F64 × LimitRef)

/-- Go `type OrderBook struct`. -/
structure OrderBook where
  Asks : List LimitRef
  Bids : List LimitRef
  AskLimits : LimitMap
  BidLimits : LimitMap
deriving DecidableEq

/-- The memory the pointers of the program address. -/
structure Heap where
  orders : List Order
  limits : List Limit
deriving DecidableEq

/-- Dereference an order pointer. -/
def Heap.order (h : Heap) (o : OrderRef) : Option Order := h.orders[o]?

/-- Dereference a level pointer. -/
def Heap.limit (h : Heap) (l : LimitRef) : Option Limit := h.limits[l]?

/-- Map read `m[k]`; `none` is the nil a Go map gives for a missing key.  Keys are
compared with `==`, so a NaN key is never found. -/
def mapGet : LimitMap → F64 → Option LimitRef
  | [], _ => none
  | (k', v) :: m, k => if F64.eq k' k then some v else mapGet m k

/-- Map write `m[k] = v`: overwrite the entry whose key `==` `k`, or add one (always, for
a NaN key). -/
def mapSet : LimitMap → F64 → LimitRef → LimitMap
  | [], k, v => [(k, v)]
  | (k', v') :: m, k, v => if F64.eq k' k then (k', v) :: m else (k', v') :: mapSet m k v

/-- The read `limit = m[price]` followed by the test `limit == nil`: `some limit` when the
index holds under `price` a pointer that addresses a level, `none` when the key is missing
or the pointer stored under it is nil. -/
def lookup (h : Heap) (m : LimitMap) (price : F64) : Option LimitRef :=
  (mapGet m price).filter (fun limit => (h.limit limit).isSome)

/-- Go `NewOrder(bid, size)`: allocate an order; `now` is `time.Now().UnixNano()`. -/
def NewOrder (h : Heap) (bid : Bool) (size : F64) (now : Int) : Heap × OrderRef :=
  ({ h with orders := h.orders ++ [{ Size := size, Bid := bid, Limit := none, Timestamp := now }] },
    h.orders.length)

/-- Go `NewLimit(price)`: allocate a level with an empty queue and zero volume. -/
def NewLimit (h : Heap) (price : F64) : Heap × LimitRef :=
  ({ h with limits := h.limits ++ [{ Price := price, Orders := [], TotalVolume := 0 }] },
    h.limits.length)

/-- Go `(l *Limit) AddOrder(o *Order)`:
`o.Limit = l; l.Orders = append(l.Orders, o); l.TotalVolume += o.Size`. -/
def AddOrder (h : Heap) (l : LimitRef) (o : OrderRef) : Option Heap :=
  match h.order o, h.limit l with
  | some ov, some lv =>
    some { orders := h.orders.set o { ov with Limit := some l }
           limits := h.limits.set l
             { lv with Orders := lv.Orders ++ [o], TotalVolume := lv.TotalVolume + ov.Size } }
  | _, _ => none

/-- Go `NewOrderBook()`. -/
def NewOrderBook : OrderBook :=
  { Asks := [], Bids := [], AskLimits := [], BidLimits := [] }

/-- Go `(ob *OrderBook) Add(price, o)`: look the level up in the index of the order's
side; on a miss allocate it, append it to the side's slice and store it in the index;
then `limit.AddOrder(o)`. -/
def Add (h : Heap) (ob : OrderBook) (price : F64) (o : OrderRef) : Option (Heap × OrderBook) :=
  match h.order o with
  | none => none
  | some ov =>
    match (if ov.Bid then lookup h ob.BidLimits price else lookup h ob.AskLimits price) with
    | some limit => (AddOrder h limit o).map (fun h' => (h', ob))
    | none =>
      let (h1, limit) := NewLimit h price
      let ob1 : OrderBook :=
        if ov.Bid then
          { ob with Bids := ob.Bids ++ [limit], BidLimits := mapSet ob.BidLimits price limit }
        else
          { ob with Asks := ob.Asks ++ [limit], AskLimits := mapSet ob.AskLimits price limit }
      (AddOrder h1 limit o).map (fun h' => (h', ob1))

/-- Go `(ob *OrderBook) PlaceOrder(price, o) []Match`: the matching step is an empty
comment; an order of size `> 0` is added to the book; the result is `[]Match{}`. -/
def PlaceOrder (h : Heap) (ob : OrderBook) (price : F64) (o : OrderRef) :
    Option (Heap × OrderBook × List Match) :=
  match h.order o with
  | none => none
  | some ov =>
    if ov.Size > 0 then
      (Add h ob price o).map (fun r => (r.1, r.2, []))
    else
      some (h, ob, [])

/-- A sequence of `PlaceOrder` calls, each given as (price, order pointer); the
result is the final memory and book, or `none` if a call panics. -/
def placeAll (h : Heap) (ob : OrderBook) : List (F64 × OrderRef) → Option (Heap × OrderBook)
  | [] => some (h, ob)
  | (price, o) :: calls =>
    match PlaceOrder h ob price o with
    | none => none
    | some (h', ob', _) => placeAll h' ob' calls

/-- Price of the level `l` points to (0 for a pointer that addresses nothing). -/
def Heap.priceOf (h : Heap) (l : LimitRef) : F64 :=
  match h.limit l with
  | some lv => lv.Price
  | none => 0

/-- Size of the order `o` points to (0 for a pointer that addresses nothing). -/
def Heap.sizeOf (h : Heap) (o : OrderRef) : F64 :=
  match h.order o with
  | some ov => ov.Size
  | none => 0

/-- The memory of `TestOrderBook` after its three `NewOrder` calls. -/
def testHeap : Heap :=
  (NewOrder (NewOrder (NewOrder ⟨[], []⟩ true 10 1).1 true 2000 2).1 true 3000 3).1

/-- The levels of one side of the book (`true`: `Bids`, `false`: `Asks`). -/
def OrderBook.side (ob : OrderBook) (b : Bool) : List LimitRef :=
  if b then ob.Bids else ob.Asks

/-- The index of one side of the book (`true`: `BidLimits`, `false`: `AskLimits`). -/
def OrderBook.index (ob : OrderBook) (b : Bool) : LimitMap :=
  if b then ob.BidLimits else ob.AskLimits

/-- What one successful `Add` of the order `o` (value `ov`) does: `l` is the level the
order joins and `lv` that level just before the order is appended (the level found in
the index, or the freshly allocated empty one). -/
structure AddEffect (h : Heap) (ob : OrderBook) (price : F64) (o : OrderRef)
    (h' : Heap) (ob' : OrderBook) (ov : Order) (l : LimitRef) (lv : Limit) : Prop where
  order : h.order o = some ov
  order_self : h'.order o = some { ov with Limit := some l }
  order_other : ∀ o', o' ≠ o → h'.order o' = h.order o'
  limit_self : h'.limit l = some
    { Price := lv.Price, Orders := lv.Orders ++ [o], TotalVolume := lv.TotalVolume + ov.Size }
  limit_other : ∀ l', l' ≠ l → l' < h.limits.length → h'.limit l' = h.limit l'
  cases :
    (lookup h (ob.index ov.Bid) price = some l ∧ h.limit l = some lv ∧ ob' = ob ∧
      h'.limits.length = h.limits.length) ∨
    (lookup h (ob.index ov.Bid) price = none ∧ l = h.limits.length ∧
      lv = { Price := price, Orders := [], TotalVolume := 0 } ∧
      ob'.side ov.Bid = ob.side ov.Bid ++ [l] ∧
      ob'.index ov.Bid = mapSet (ob.index ov.Bid) price l ∧
      ob'.side (!ov.Bid) = ob.side (!ov.Bid) ∧
      ob'.index (!ov.Bid) = ob.index (!ov.Bid) ∧
      h'.limits.length = h.limits.length + 1)

/-- The invariant of a book built by `PlaceOrder`: the level pointers of both slices
address levels, each index lists exactly the levels of its slice under their own prices,
no two levels of a side have `==` prices, no level is on both sides, no level has an empty
queue, every queued order pointer addresses an order, and every level's `TotalVolume` is
the `float64` sum, taken from the head of the queue, of the sizes of its queued orders. -/
structure BookInv (h : Heap) (ob : OrderBook) : Prop where
  valid : ∀ b, ∀ l ∈ ob.side b, l < h.limits.length
  index : ∀ b, ob.index b = (ob.side b).map (fun l => (h.priceOf l, l))
  prices : ∀ b, ((ob.side b).map h.priceOf).Pairwise (fun x y => F64.eq x y = false)
  disjoint : ∀ l ∈ ob.side true, l ∉ ob.side false
  nonempty : ∀ b, ∀ l ∈ ob.side b, ∀ lv, h.limit l = some lv → lv.Orders ≠ []
  queued : ∀ b, ∀ l ∈ ob.side b, ∀ lv, h.limit l = some lv →
    ∀ o ∈ lv.Orders, (h.order o).isSome = true
  volume : ∀ b, ∀ l ∈ ob.side b, ∀ lv, h.limit l = some lv →
    lv.TotalVolume = F64.sum (lv.Orders.map h.sizeOf)

/-- The memory at the end of `TestOrderBook`. -/
def testHeapPlaced : Heap :=
  { orders := [⟨10, true, some 0, 1⟩, ⟨2000, true, some 0, 2⟩, ⟨3000, true, some 1, 3⟩]
    limits := [⟨18000, [0, 1], 2010⟩, ⟨17000, [2], 3000⟩] }

/-- The book at the end of `TestOrderBook`. -/
def testBookPlaced : OrderBook :=
  { Asks := [], Bids := [0, 1], AskLimits := [], BidLimits := [(18000, 0), (17000, 1)] }

/-- Whether the call `c` (a price and an order pointer) rests an order on side `b` at
price `p`: the price `==` `p`, the order's `Bid` flag is `b` and its `Size` is `> 0`. -/
def Heap.rests (h : Heap) (b : Bool) (p : F64) (c : F64 × OrderRef) : Bool :=
  match h.order c.2 with
  | some ov => F64.eq c.1 p && (ov.Bid == b) && decide (0 < ov.Size)
  | none => false

/-- The orders that a sequence of calls rests on side `b` at price `p`, in call order. -/
def placed (h : Heap) (calls : List (F64 × OrderRef)) (b : Bool) (p : F64) : List OrderRef :=
  (calls.filter (h.rests b p)).map Prod.snd

/-- The queue of the level that the index of side `b` holds under price `p` (empty when
the price is not a key). -/
def queueAt (h : Heap) (ob : OrderBook) (b : Bool) (p : F64) : List OrderRef :=
  match mapGet (ob.index b) p with
  | some l =>
    match h.limit l with
    | some lv => lv.Orders
    | none => []
  | none => []

/-- Memory of scenarios A and B: a bid of size 10 and an ask of size 10. -/
def crossHeap : Heap :=
  (NewOrder (NewOrder ⟨[], []⟩ true 10 1).1 false 10 2).1

/-- Memory of scenario C: bids of sizes 5 and 3, and an ask of size 6. -/
def queueHeap : Heap :=
  (NewOrder (NewOrder (NewOrder ⟨[], []⟩ true 5 1).1 true 3 2).1 false 6 3).1

/-- Memory after the bid of 3000 of `testHeap` alone is placed at 17000. -/
def lowBidHeap : Heap :=
  { orders := [⟨10, true, none, 1⟩, ⟨2000, true, none, 2⟩, ⟨3000, true, some 0, 3⟩]
    limits := [⟨17000, [2], 3000⟩] }

/-- Book after the bid of 3000 of `testHeap` alone is placed at 17000. -/
def lowBidBook : OrderBook :=
  { Asks := [], Bids := [0], AskLimits := [], BidLimits := [(17000, 0)] }

/-- Memory of scenario B once the bid and the ask are both placed at 100. -/
def crossHeapPlaced : Heap :=
  { orders := [⟨10, true, some 0, 1⟩, ⟨10, false, some 1, 2⟩]
    limits := [⟨100, [0], 10⟩, ⟨100, [1], 10⟩] }

/-- Book of scenario B once the bid and the ask are both placed at 100. -/
def crossBookPlaced : OrderBook :=
  { Asks := [1], Bids := [0], AskLimits := [(100, 1)], BidLimits := [(100, 0)] }

/-- Memory of scenario C once the two bids are placed at 100. -/
def queueHeapBids : Heap :=
  { orders := [⟨5, true, some 0, 1⟩, ⟨3, true, some 0, 2⟩, ⟨6, false, none, 3⟩]
    limits := [⟨100, [0, 1], 8⟩] }

/-- Book of scenario C once the two bids are placed at 100. -/
def queueBookBids : OrderBook :=
  { Asks := [], Bids := [0], AskLimits := [], BidLimits := [(100, 0)] }

/-- The loop of `DeleteOrder`,
`for i := 0; i < len(l.Orders); i++ { if l.Orders[i] == o { l.Orders[i] = l.Orders[len(l.Orders)-1]; l.Orders = l.Orders[:len(l.Orders)-1] } }`,
from index `i` on the slice `q`.  The first argument bounds the number of iterations
still allowed; `none` means the bound was too small (`q.length - i` always suffices). -/
def deleteLoop (o : OrderRef) : Nat → Nat → List OrderRef → Option (List OrderRef)
  | 0, i, q => if i < q.length then none else some q
  | n + 1, i, q =>
    match q[i]?, q[q.length - 1]? with
    | some x, some last =>
      if x = o then deleteLoop o n (i + 1) (q.set i last).dropLast
      else deleteLoop o n (i + 1) q
    | _, _ => some q

/-- Timestamp of the order `o` points to (0 for a pointer that addresses nothing). -/
def Heap.tsOf (h : Heap) (o : OrderRef) : Int :=
  match h.order o with
  | some ov => ov.Timestamp
  | none => 0

/-- The contract of the library call `sort.Sort(l.Orders)` with `Orders.Less` (compare
`Timestamp`): the result is a rearrangement of the slice in which no element has a
smaller `Timestamp` than an element before it.  The library does not promise to keep
the order of equal `Timestamp`s. -/
def SortContract (sort : (OrderRef → Int) → List OrderRef → List OrderRef) : Prop :=
  ∀ ts q, (sort ts q).Perm q ∧ (sort ts q).Pairwise (fun a b => ts a ≤ ts b)

/-- An instance of `sort.Sort` with `Orders.Less`: insertion sort by `Timestamp`, the
procedure the library runs on slices of at most 12 elements. -/
def sortByTimestamp (ts : OrderRef → Int) (q : List OrderRef) : List OrderRef :=
  q.insertionSort (fun a b => ts a ≤ ts b)

/-- Go `(l *Limit) DeleteOrder(o *Order)`: the swap-with-last loop, then
`o.Limit = nil; l.TotalVolume -= o.Size; sort.Sort(l.Orders)`.  `sort` is the library's
`sort.Sort`; it calls `Less`, which dereferences the queued pointers, only on a slice of
two or more elements. -/
def DeleteOrder (sort : (OrderRef → Int) → List OrderRef → List OrderRef) (h : Heap)
    (l : LimitRef) (o : OrderRef) : Option Heap :=
  match h.limit l with
  | none => none
  | some lv =>
    match deleteLoop o lv.Orders.length 0 lv.Orders with
    | none => none
    | some q =>
      match h.order o with
      | none => none
      | some ov =>
        if 2 ≤ q.length ∧ ¬ (∀ x ∈ q, (h.order x).isSome = true) then none
        else
          some { orders := h.orders.set o { ov with Limit := none }
                 limits := h.limits.set l
                   { lv with Orders := sort h.tsOf q, TotalVolume := lv.TotalVolume - ov.Size } }

/-- What the loop of `DeleteOrder` leaves of the part of the slice behind the deleted
order: its last element moved to the front. -/
def swapLast (b : List OrderRef) : List OrderRef :=
  match b.getLast? with
  | none => []
  | some y => y :: b.dropLast

/-- The memory of the test `TestLimit`: a level at 10000 holding, in this order, orders
of sizes 5, 8 and 10. -/
def limitHeap : Heap :=
  { orders := [⟨5, true, some 0, 1⟩, ⟨8, true, some 0, 2⟩, ⟨10, true, some 0, 3⟩]
    limits := [⟨10000, [0, 1, 2], 23⟩] }

/-- A level whose queue is not in `Timestamp` order (orders created in the order 1, 2, 0
and queued in the order 0, 1, 2), and an order (3) that is in no queue. -/
def lateHeap : Heap :=
  { orders := [⟨5, true, some 0, 3⟩, ⟨8, true, some 0, 1⟩, ⟨10, true, some 0, 2⟩,
               ⟨7, true, none, 4⟩]
    limits := [⟨10000, [0, 1, 2], 23⟩] }

/-- The queue of the level `l` points to (empty for a pointer that addresses nothing). -/
def Heap.queueOf (h : Heap) (l : LimitRef) : List OrderRef :=
  match h.limit l with
  | some lv => lv.Orders
  | none => []

/-- The memories reached from `h0` by calls on the level `l`: `AddOrder` of an order of
positive size that is not in the queue, and `DeleteOrder` of an order that is in the
queue. -/
inductive LevelReach (sort : (OrderRef → Int) → List OrderRef → List OrderRef)
    (l : LimitRef) (h0 : Heap) : Heap → Prop
  | start : LevelReach sort l h0 h0
  | add {h h' : Heap} {o : OrderRef} {ov : Order} : LevelReach sort l h0 h →
      h.order o = some ov → 0 < ov.Size → o ∉ h.queueOf l → AddOrder h l o = some h' →
      LevelReach sort l h0 h'
  | delete {h h' : Heap} {o : OrderRef} : LevelReach sort l h0 h →
      o ∈ h.queueOf l → DeleteOrder sort h l o = some h' → LevelReach sort l h0 h'

/-- `TotalVolume` of the level `l` points to (0 for a pointer that addresses nothing). -/
def Heap.volumeOf (h : Heap) (l : LimitRef) : F64 :=
  match h.limit l with
  | some lv => lv.TotalVolume
  | none => 0

/-- The memories of `LevelReach` that are reached without rounding: the `+=` of every
`AddOrder` and the `-=` of every `DeleteOrder` along the way is exact. -/
inductive LevelReachExact (sort : (OrderRef → Int) → List OrderRef → List OrderRef)
    (l : LimitRef) (h0 : Heap) : Heap → Prop
  | start : LevelReachExact sort l h0 h0
  | add {h h' : Heap} {o : OrderRef} {ov : Order} : LevelReachExact sort l h0 h →
      h.order o = some ov → 0 < ov.Size → o ∉ h.queueOf l →
      F64.addExact (h.volumeOf l) ov.Size → AddOrder h l o = some h' →
      LevelReachExact sort l h0 h'
  | delete {h h' : Heap} {o : OrderRef} : LevelReachExact sort l h0 h →
      o ∈ h.queueOf l → F64.subExact (h.volumeOf l) (h.sizeOf o) →
      DeleteOrder sort h l o = some h' → LevelReachExact sort l h0 h'

/-- The memory `bigHeap` with a level at 100 (`NewLimit`) after `AddOrder` of the order of
size `10^16`. -/
def bigHeap1 : Heap :=
  { orders := [⟨10000000000000000, true, some 0, 1⟩, ⟨1, true, none, 2⟩]
    limits := [⟨100, [0], 10000000000000000⟩] }

/-- The memory `bigHeap1` after `AddOrder` of the order of size 1: the volume is still
`10^16`. -/
def bigHeap2 : Heap :=
  { orders := [⟨10000000000000000, true, some 0, 1⟩, ⟨1, true, some 0, 2⟩]
    limits := [⟨100, [0, 1], 10000000000000000⟩] }

/-- The memory `bigHeap2` after `DeleteOrder` of the order of size `10^16`: the order of
size 1 is queued and the volume is 0. -/
def bigHeap3 : Heap :=
  { orders := [⟨10000000000000000, true, none, 1⟩, ⟨1, true, some 0, 2⟩]
    limits := [⟨100, [1], 0⟩] }

/-- The memory `bigHeap3` after `DeleteOrder` of the order of size 1: the queue is empty
and the volume is -1. -/
def bigHeap4 : Heap :=
  { orders := [⟨10000000000000000, true, none, 1⟩, ⟨1, true, none, 2⟩]
    limits := [⟨100, [], F64.ofInt (-1)⟩] }

/-- Memory of two bids of sizes 5 and 8. -/
def pairHeap : Heap :=
  (NewOrder (NewOrder ⟨[], []⟩ true 5 1).1 true 8 2).1

/-- The memory `pairHeap` with a level at 100 (`NewLimit`) after `AddOrder` of the order of
size 5. -/
def pairHeap1 : Heap :=
  { orders := [⟨5, true, some 0, 1⟩, ⟨8, true, none, 2⟩], limits := [⟨100, [0], 5⟩] }

/-- The memory `pairHeap1` after `AddOrder` of the order of size 8. -/
def pairHeap2 : Heap :=
  { orders := [⟨5, true, some 0, 1⟩, ⟨8, true, some 0, 2⟩], limits := [⟨100, [0, 1], 13⟩] }

/-- The memory `pairHeap2` after `DeleteOrder` of the order of size 5. -/
def pairHeap3 : Heap :=
  { orders := [⟨5, true, none, 1⟩, ⟨8, true, some 0, 2⟩], limits := [⟨100, [1], 8⟩] }

/-- Memory of a bid level of price 200 queueing an order of size 5, and a bid of size 7
that is in no queue. -/
def aliasHeap : Heap :=
  { orders := [⟨5, true, some 0, 1⟩, ⟨7, true, none, 2⟩]
    limits := [⟨200, [0], 5⟩] }

/-- Memory of two bids of sizes `10^16` and 1: `float64` has no value between `10^16` and
`10^16 + 2`, so adding 1 to `10^16` gives `10^16`. -/
def bigHeap : Heap :=
  (NewOrder (NewOrder ⟨[], []⟩ true 10000000000000000 1).1 true 1 2).1

/-! ## `float64` arithmetic -/

theorem lgAux_eq : ∀ (fuel n : Nat), n ≤ fuel → lgAux fuel n = n.log2
  | 0, n, h => by
    have : n = 0 := by omega
    subst this
    simp [lgAux, Nat.log2_zero]
  | fuel + 1, n, h => by
    unfold lgAux
    rw [Nat.log2]
    by_cases h2 : 2 ≤ n
    · simp only [h2, if_true, ge_iff_le]
      rw [lgAux_eq fuel (n / 2) (by omega)]
    · simp only [h2, if_false, ge_iff_le]

theorem lgSearch_eq : ∀ (s lo n : Nat), n ≠ 0 → 2 ^ lo ≤ n → n < 2 ^ (lo + 2 ^ s) →
    lgSearch s lo n = n.log2
  | 0, lo, n, h0, h1, h2 => by
    simp only [lgSearch]
    apply le_antisymm
    · exact (Nat.le_log2 h0).mpr h1
    · have : n.log2 < lo + 1 := (Nat.log2_lt h0).mpr (by simpa using h2)
      omega
  | s + 1, lo, n, h0, h1, h2 => by
    unfold lgSearch
    have hs : lo + 2 ^ (s + 1) = lo + 2 ^ s + 2 ^ s := by rw [Nat.pow_succ]; omega
    by_cases hc : 2 ^ (lo + 2 ^ s) ≤ n
    · rw [if_pos hc]
      exact lgSearch_eq s (lo + 2 ^ s) n h0 hc (hs ▸ h2)
    · rw [if_neg hc]
      exact lgSearch_eq s lo n h0 h1 (Nat.lt_of_not_le hc)

theorem lg_eq (n : Nat) : lg n = n.log2 := by
  unfold lg
  by_cases h0 : n = 0
  · simp [h0, Nat.log2_zero]
  · rw [if_neg h0]
    by_cases hlt : n < 2 ^ 2 ^ 12
    · rw [if_pos hlt]
      refine lgSearch_eq 12 0 n h0 ?_ ?_
      · rw [Nat.pow_zero]; exact Nat.pos_of_ne_zero h0
      · rw [Nat.zero_add]; exact hlt
    · rw [if_neg hlt]
      exact lgAux_eq n n (le_refl n)

theorem roundNat_of_lt {n : Nat} (h : n < 2 ^ 53) : roundNat n = n := by
  have hk : n.log2 - 52 = 0 := by
    by_cases h0 : n = 0
    · subst h0; simp [Nat.log2_zero]
    · have : n.log2 < 53 := (Nat.log2_lt h0).mpr h
      omega
  unfold roundNat
  simp [lg_eq, hk, Nat.mod_one]

theorem roundNat_grid {m k : Nat} (h1 : 2 ^ 52 ≤ m) (h2 : m ≤ 2 ^ 53) :
    roundNat (m * 2 ^ k) = m * 2 ^ k := by
  have hpos : 0 < 2 ^ k := Nat.two_pow_pos _
  have hm0 : 0 < m := lt_of_lt_of_le (Nat.two_pow_pos _) h1
  have hy0 : m * 2 ^ k ≠ 0 :=
    Nat.mul_ne_zero (Nat.pos_iff_ne_zero.mp hm0) (Nat.pos_iff_ne_zero.mp hpos)
  rcases Nat.lt_or_ge m (2 ^ 53) with hlt | hge
  · have hlog : (m * 2 ^ k).log2 = 52 + k := by
      apply le_antisymm
      · have : (m * 2 ^ k).log2 < 53 + k := by
          rw [Nat.log2_lt hy0, Nat.pow_add]
          exact Nat.mul_lt_mul_of_pos_right hlt hpos
        omega
      · rw [Nat.le_log2 hy0, Nat.pow_add]
        exact Nat.mul_le_mul_right _ h1
    unfold roundNat
    simp only [lg_eq, hlog, Nat.add_sub_cancel_left, Nat.mul_div_cancel _ hpos,
      Nat.mul_mod_left, Nat.mul_zero, hpos, if_true]
  · have hm : m = 2 ^ 53 := le_antisymm h2 hge
    subst hm
    have hy : 2 ^ 53 * 2 ^ k = 2 ^ (53 + k) := (Nat.pow_add 2 53 k).symm
    have hsplit : 2 ^ 53 * 2 ^ k = 2 ^ 52 * 2 ^ (k + 1) := by
      rw [← Nat.pow_add, ← Nat.pow_add]; congr 1; omega
    have hpos' : 0 < 2 ^ (k + 1) := Nat.two_pow_pos _
    have hlog : (2 ^ 53 * 2 ^ k).log2 = 53 + k := by rw [hy, Nat.log2_two_pow]
    have hk : 53 + k - 52 = k + 1 := by omega
    unfold roundNat
    simp only [lg_eq, hlog, hk]
    rw [hsplit]
    simp only [Nat.mul_div_cancel _ hpos', Nat.mul_mod_left, Nat.mul_zero, hpos', if_true]

/-- Rounding lands on a value that rounding leaves alone. -/
theorem roundNat_idem (n : Nat) : roundNat (roundNat n) = roundNat n := by
  by_cases hsmall : n < 2 ^ 53
  · rw [roundNat_of_lt hsmall, roundNat_of_lt hsmall]
  · have hn0 : n ≠ 0 := by
      intro h; subst h; exact hsmall (Nat.two_pow_pos _)
    have hL : 53 ≤ n.log2 := (Nat.le_log2 hn0).mpr (Nat.le_of_not_lt hsmall)
    obtain ⟨k, hk⟩ : ∃ k, n.log2 = k + 52 := ⟨n.log2 - 52, by omega⟩
    have hpos : 0 < 2 ^ k := Nat.two_pow_pos _
    have hlo : 2 ^ 52 ≤ n / 2 ^ k := by
      rw [Nat.le_div_iff_mul_le hpos, ← Nat.pow_add]
      have := (Nat.le_log2 hn0).mp (le_of_eq hk.symm)
      rwa [Nat.add_comm] at this
    have hhi : n / 2 ^ k < 2 ^ 53 := by
      rw [Nat.div_lt_iff_lt_mul hpos, ← Nat.pow_add]
      have := Nat.lt_log2_self (n := n)
      rw [hk] at this
      have e : k + 52 + 1 = 53 + k := by omega
      rwa [e] at this
    have hform : roundNat n = (n / 2 ^ k) * 2 ^ k ∨ roundNat n = (n / 2 ^ k + 1) * 2 ^ k := by
      unfold roundNat
      simp only [lg_eq, hk, Nat.add_sub_cancel]
      split_ifs <;> simp
    rcases hform with h | h
    · rw [h]; exact roundNat_grid hlo (le_of_lt hhi)
    · rw [h]; exact roundNat_grid (Nat.le_succ_of_le hlo) hhi

theorem roundInt_idem (z : Int) : roundInt (roundInt z) = roundInt z := by
  unfold roundInt
  by_cases hz : z < 0
  · simp only [hz, if_true]
    by_cases h0 : roundNat z.natAbs = 0
    · rw [h0]
      simp [roundNat_of_lt (show 0 < 2 ^ 53 from Nat.two_pow_pos _)]
    · have hneg : -(roundNat z.natAbs : Int) < 0 := by
        have : (0 : Int) < roundNat z.natAbs := by exact_mod_cast Nat.pos_of_ne_zero h0
        omega
      simp only [hneg, if_true, Int.natAbs_neg, Int.natAbs_ofNat, roundNat_idem]
  · simp only [hz, if_false]
    have hnn : ¬ ((roundNat z.natAbs : Int) < 0) := by omega
    simp only [hnn, if_false, Int.natAbs_ofNat, roundNat_idem]

theorem F64.round_of_ok {z : Int} (ok : IsF64 z) : F64.round z = F64.fin z ok := by
  have key : ∀ (y : Int) (hy : IsF64 y), y = z → F64.fin y hy = F64.fin z ok := by
    intro y hy e
    subst e
    rfl
  unfold F64.round
  have h' : IsF64 (roundInt z) := by rw [ok.1]; exact ok
  rw [dif_pos h']
  exact key _ _ ok.1

/-- Rounding overflows to an infinity exactly when the rounded value is out of range. -/
theorem F64.round_eq_inf_iff (z : Int) (neg : Bool) :
    F64.round z = F64.inf neg ↔ ¬ lg (roundInt z).natAbs < 2098 ∧ neg = decide (z < 0) := by
  unfold F64.round
  by_cases hb : lg (roundInt z).natAbs < 2098
  · have h' : IsF64 (roundInt z) := ⟨roundInt_idem z, hb⟩
    rw [dif_pos h']
    constructor
    · intro H; cases H
    · intro H; exact absurd hb H.1
  · have h' : ¬ IsF64 (roundInt z) := fun H => hb H.2
    rw [dif_neg h']
    constructor
    · intro H; cases H; exact ⟨hb, rfl⟩
    · rintro ⟨-, rfl⟩; rfl

theorem F64.zero_def : (0 : F64) = F64.fin 0 (by decide) := by
  decide!

/-- In `float64`, `0 + s` is `s`. -/
theorem F64.zero_add (s : F64) : 0 + s = s := by
  show F64.add 0 s = s
  rw [F64.zero_def]
  cases s with
  | fin z ok =>
    show F64.round (0 + z) = _
    rw [Int.zero_add]
    exact F64.round_of_ok ok
  | inf neg => rfl
  | nan => rfl

theorem F64.eq_iff {a b : F64} : F64.eq a b = true ↔ a = b ∧ a ≠ F64.nan := by
  cases a <;> cases b <;>
    simp only [F64.eq, decide_eq_true_eq, ne_eq, reduceCtorEq, not_false_eq_true, and_true,
      not_true_eq_false, and_false, Bool.false_eq_true, and_self]

theorem F64.ne_nan_of_pos {s : F64} (h : 0 < s) : s ≠ F64.nan := by
  intro e
  subst e
  have h' : F64.lt 0 F64.nan = true := h
  rw [F64.zero_def] at h'
  exact Bool.noConfusion h'

theorem F64.not_pos_of_le_zero {s : F64} (h : s ≤ 0) : ¬ 0 < s := by
  intro hp
  have h1 : F64.le s 0 = true := h
  have h2 : F64.lt 0 s = true := hp
  rw [F64.zero_def] at h1 h2
  cases s with
  | fin z ok =>
    simp only [F64.le, F64.lt, decide_eq_true_eq] at h1 h2
    omega
  | inf neg =>
    cases neg
    · exact Bool.noConfusion h1
    · exact Bool.noConfusion h2
  | nan => exact Bool.noConfusion h1

theorem F64.ne_nan_of_le_zero {s : F64} (h : s ≤ 0) : s ≠ F64.nan := by
  intro e
  subst e
  have h1 : F64.le F64.nan 0 = true := h
  rw [F64.zero_def] at h1
  exact Bool.noConfusion h1

/-! ## Memory lemmas -/

theorem AddOrder_eq_some {h h' : Heap} {l : LimitRef} {o : OrderRef}
    (H : AddOrder h l o = some h') :
    ∃ ov lv, h.order o = some ov ∧ h.limit l = some lv ∧
      h' = { orders := h.orders.set o { ov with Limit := some l }
             limits := h.limits.set l
               { lv with Orders := lv.Orders ++ [o], TotalVolume := lv.TotalVolume + ov.Size } } := by
  unfold AddOrder at H
  split at H
  · rename_i ov lv ho hl
    exact ⟨ov, lv, ho, hl, (Option.some.inj H).symm⟩
  · exact absurd H (by simp)

theorem AddOrder_of_valid {h : Heap} {l : LimitRef} {o : OrderRef} {ov : Order} {lv : Limit}
    (ho : h.order o = some ov) (hl : h.limit l = some lv) :
    AddOrder h l o = some
      { orders := h.orders.set o { ov with Limit := some l }
        limits := h.limits.set l
          { lv with Orders := lv.Orders ++ [o], TotalVolume := lv.TotalVolume + ov.Size } } := by
  unfold AddOrder
  rw [ho, hl]

theorem limit_lt {h : Heap} {l : LimitRef} {lv : Limit} (hl : h.limit l = some lv) :
    l < h.limits.length := by
  unfold Heap.limit at hl
  exact (List.getElem?_eq_some.mp hl).1

theorem limit_of_lt {h : Heap} {l : LimitRef} (hl : l < h.limits.length) :
    ∃ lv, h.limit l = some lv :=
  ⟨h.limits[l], by unfold Heap.limit; exact List.getElem?_eq_getElem hl⟩

theorem order_lt {h : Heap} {o : OrderRef} {ov : Order} (ho : h.order o = some ov) :
    o < h.orders.length := by
  unfold Heap.order at ho
  exact (List.getElem?_eq_some.mp ho).1

theorem AddOrder_limit_self {h h' : Heap} {l : LimitRef} {o : OrderRef} {ov : Order} {lv : Limit}
    (H : AddOrder h l o = some h') (ho : h.order o = some ov) (hl : h.limit l = some lv) :
    h'.limit l = some
      { Price := lv.Price, Orders := lv.Orders ++ [o], TotalVolume := lv.TotalVolume + ov.Size } := by
  rw [AddOrder_of_valid ho hl] at H
  have hlt := limit_lt hl
  rw [← Option.some.inj H]
  simp [Heap.limit, hlt]

theorem AddOrder_limit_other {h h' : Heap} {l l' : LimitRef} {o : OrderRef}
    (H : AddOrder h l o = some h') (hne : l' ≠ l) : h'.limit l' = h.limit l' := by
  obtain ⟨ov, lv, -, -, rfl⟩ := AddOrder_eq_some H
  simp [Heap.limit, List.getElem?_set_ne (Ne.symm hne)]

theorem AddOrder_order_self {h h' : Heap} {l : LimitRef} {o : OrderRef} {ov : Order}
    (H : AddOrder h l o = some h') (ho : h.order o = some ov) :
    h'.order o = some { ov with Limit := some l } := by
  obtain ⟨ov', lv, ho', -, rfl⟩ := AddOrder_eq_some H
  have hlt := order_lt ho
  rw [ho] at ho'
  cases ho'
  simp [Heap.order, hlt]

theorem AddOrder_order_other {h h' : Heap} {l : LimitRef} {o o' : OrderRef}
    (H : AddOrder h l o = some h') (hne : o' ≠ o) : h'.order o' = h.order o' := by
  obtain ⟨ov, lv, -, -, rfl⟩ := AddOrder_eq_some H
  simp [Heap.order, List.getElem?_set_ne (Ne.symm hne)]

theorem AddOrder_limits_length {h h' : Heap} {l : LimitRef} {o : OrderRef}
    (H : AddOrder h l o = some h') : h'.limits.length = h.limits.length := by
  obtain ⟨ov, lv, -, -, rfl⟩ := AddOrder_eq_some H
  simp

theorem NewLimit_limit_old (h : Heap) (price : F64) {l : LimitRef} (hl : l < h.limits.length) :
    (NewLimit h price).1.limit l = h.limit l := by
  simp [NewLimit, Heap.limit, List.getElem?_append_left hl]

theorem NewLimit_limit_new (h : Heap) (price : F64) :
    (NewLimit h price).1.limit h.limits.length =
      some { Price := price, Orders := [], TotalVolume := 0 } := by
  simp [NewLimit, Heap.limit]

theorem NewLimit_order (h : Heap) (price : F64) (o : OrderRef) :
    (NewLimit h price).1.order o = h.order o := rfl

/-! ## The effect of `Add` and `PlaceOrder` -/

theorem Add_effect {h h' : Heap} {ob ob' : OrderBook} {price : F64} {o : OrderRef}
    (H : Add h ob price o = some (h', ob')) :
    ∃ ov l lv, AddEffect h ob price o h' ob' ov l lv := by
  unfold Add at H
  split at H
  · exact absurd H (by simp)
  · rename_i ov ho
    split at H
    · rename_i l hget
      have hget' : lookup h (ob.index ov.Bid) price = some l := by
        unfold OrderBook.index; cases hb : ov.Bid <;> simpa [hb] using hget
      obtain ⟨h'', hadd, heq⟩ := Option.map_eq_some'.mp H
      cases heq
      obtain ⟨ov', lv, ho', hl, -⟩ := AddOrder_eq_some hadd
      rw [ho] at ho'; cases ho'
      exact ⟨ov, l, lv, ho, AddOrder_order_self hadd ho,
        fun o' hne => AddOrder_order_other hadd hne,
        AddOrder_limit_self hadd ho hl,
        fun l' hne _ => AddOrder_limit_other hadd hne,
        Or.inl ⟨hget', hl, rfl, AddOrder_limits_length hadd⟩⟩
    · rename_i hget
      have hget' : lookup h (ob.index ov.Bid) price = none := by
        unfold OrderBook.index; cases hb : ov.Bid <;> simpa [hb] using hget
      obtain ⟨h'', hadd, heq⟩ := Option.map_eq_some'.mp H
      cases heq
      have hnew := NewLimit_limit_new h price
      have ho1 : (NewLimit h price).1.order o = some ov := ho
      replace hadd : AddOrder (NewLimit h price).1 h.limits.length o = some h' := hadd
      refine ⟨ov, h.limits.length, { Price := price, Orders := [], TotalVolume := 0 }, ho,
        AddOrder_order_self hadd ho1,
        fun o' hne => (AddOrder_order_other hadd hne).trans (NewLimit_order h price o'),
        AddOrder_limit_self hadd ho1 hnew, ?_, Or.inr ⟨hget', rfl, rfl, ?_, ?_, ?_, ?_, ?_⟩⟩
      · intro l' hne hlt
        rw [AddOrder_limit_other hadd hne]
        exact NewLimit_limit_old h price hlt
      · cases hb : ov.Bid <;> simp [OrderBook.side, hb, NewLimit]
      · cases hb : ov.Bid <;> simp [OrderBook.index, hb, NewLimit]
      · cases hb : ov.Bid <;> simp [OrderBook.side, hb, NewLimit]
      · cases hb : ov.Bid <;> simp [OrderBook.index, hb, NewLimit]
      · rw [AddOrder_limits_length hadd]; simp [NewLimit]

theorem PlaceOrder_effect {h h' : Heap} {ob ob' : OrderBook} {price : F64} {o : OrderRef}
    {ms : List Match} (H : PlaceOrder h ob price o = some (h', ob', ms)) :
    ms = [] ∧ ∃ ov, h.order o = some ov ∧
      ((¬ 0 < ov.Size ∧ h' = h ∧ ob' = ob) ∨
       (0 < ov.Size ∧ ∃ l lv, AddEffect h ob price o h' ob' ov l lv)) := by
  unfold PlaceOrder at H
  split at H
  · exact absurd H (by simp)
  · rename_i ov ho
    split at H
    · rename_i hpos
      obtain ⟨r, hadd, heq⟩ := Option.map_eq_some'.mp H
      cases heq
      obtain ⟨ov', l, lv, heff⟩ := Add_effect hadd
      have := heff.order
      rw [ho] at this; cases this
      exact ⟨rfl, ov, ho, Or.inr ⟨hpos, l, lv, heff⟩⟩
    · rename_i hpos
      cases H
      exact ⟨rfl, ov, ho, Or.inl ⟨hpos, rfl, rfl⟩⟩

theorem mapGet_mem {m : LimitMap} {k : F64} {v : LimitRef} (H : mapGet m k = some v) :
    (k, v) ∈ m ∧ k ≠ F64.nan := by
  induction m with
  | nil => simp [mapGet] at H
  | cons e m ih =>
    obtain ⟨k', v'⟩ := e
    unfold mapGet at H
    split at H
    · rename_i hk
      cases H
      obtain ⟨hkk, hnan⟩ := F64.eq_iff.mp hk
      subst hkk
      exact ⟨List.mem_cons_self _ _, hnan⟩
    · exact ⟨List.mem_cons_of_mem _ (ih H).1, (ih H).2⟩

theorem lookup_eq_some {h : Heap} {m : LimitMap} {p : F64} {l : LimitRef} :
    lookup h m p = some l ↔ mapGet m p = some l ∧ ∃ lv, h.limit l = some lv := by
  unfold lookup
  cases hg : mapGet m p with
  | none => simp
  | some x =>
    by_cases hx : (h.limit x).isSome = true
    · obtain ⟨lv, hlv⟩ := Option.isSome_iff_exists.mp hx
      constructor
      · intro H
        simp only [Option.filter, hx, if_true, Option.some.injEq] at H
        subst H
        exact ⟨rfl, lv, hlv⟩
      · rintro ⟨H, -⟩
        simp only [Option.filter, hx, if_true]
        exact H
    · constructor
      · intro H
        simp [Option.filter, hx] at H
      · rintro ⟨H, lv, hlv⟩
        cases H
        rw [hlv] at hx
        exact absurd rfl hx

theorem Add_total {h : Heap} {ob : OrderBook} {o : OrderRef} {ov : Order} (price : F64)
    (ho : h.order o = some ov) :
    ∃ h' ob', Add h ob price o = some (h', ob') := by
  unfold Add
  rw [ho]
  dsimp only
  split
  · rename_i l hget
    have hval : ∃ lv, h.limit l = some lv := by
      cases hb : ov.Bid
      · rw [hb] at hget; exact (lookup_eq_some.mp hget).2
      · rw [hb] at hget; exact (lookup_eq_some.mp hget).2
    obtain ⟨lv, hl⟩ := hval
    rw [AddOrder_of_valid ho hl]
    exact ⟨_, _, rfl⟩
  · have ho1 : (NewLimit h price).1.order o = some ov := ho
    have hnew : (NewLimit h price).1.limit (NewLimit h price).2 = _ := NewLimit_limit_new h price
    rw [AddOrder_of_valid ho1 hnew]
    exact ⟨_, _, rfl⟩

theorem PlaceOrder_total {h : Heap} {ob : OrderBook} {o : OrderRef} {ov : Order} (price : F64)
    (ho : h.order o = some ov) :
    ∃ h' ob', PlaceOrder h ob price o = some (h', ob', []) := by
  unfold PlaceOrder
  rw [ho]
  dsimp only
  split
  · obtain ⟨h', ob', hadd⟩ := Add_total price ho
    rw [hadd]
    exact ⟨h', ob', rfl⟩
  · exact ⟨h, ob, rfl⟩

/-! ## The index as a map -/

theorem mapGet_eq_none_iff {m : LimitMap} {k : F64} :
    mapGet m k = none ↔ ∀ e ∈ m, F64.eq e.1 k = false := by
  induction m with
  | nil => simp [mapGet]
  | cons e m ih =>
    obtain ⟨k', v'⟩ := e
    unfold mapGet
    by_cases hk : F64.eq k' k = true
    · simp [hk]
    · simp only [hk, if_false, List.mem_cons, Bool.false_eq_true]
      rw [ih]
      constructor
      · intro H e he
        rcases he with rfl | he
        · simpa using hk
        · exact H e he
      · intro H e he
        exact H e (Or.inr he)

theorem mapSet_of_none {m : LimitMap} {k : F64} (v : LimitRef) (H : mapGet m k = none) :
    mapSet m k v = m ++ [(k, v)] := by
  induction m with
  | nil => simp [mapSet]
  | cons e m ih =>
    obtain ⟨k', v'⟩ := e
    unfold mapGet at H
    by_cases hk : F64.eq k' k = true
    · simp [hk] at H
    · simp only [hk, if_false, Bool.false_eq_true] at H
      simp [mapSet, hk, ih H]

theorem mapGet_of_mem {m : LimitMap} {k : F64} {v : LimitRef}
    (hn : (m.map Prod.fst).Pairwise (fun x y => F64.eq x y = false))
    (hm : (k, v) ∈ m) (hk : k ≠ F64.nan) : mapGet m k = some v := by
  induction m with
  | nil => simp at hm
  | cons e m ih =>
    obtain ⟨k', v'⟩ := e
    rw [List.map_cons, List.pairwise_cons] at hn
    unfold mapGet
    rcases List.mem_cons.mp hm with heq | hmem
    · cases heq
      rw [if_pos (F64.eq_iff.mpr ⟨rfl, hk⟩)]
    · have hne : F64.eq k' k = false := hn.1 k (List.mem_map.mpr ⟨(k, v), hmem, rfl⟩)
      simp only [hne, if_false, Bool.false_eq_true]
      exact ih hn.2 hmem

/-! ## Preservation of the invariant -/

theorem priceOf_of_limit {h : Heap} {l : LimitRef} {lv : Limit} (hl : h.limit l = some lv) :
    h.priceOf l = lv.Price := by
  simp [Heap.priceOf, hl]

theorem sizeOf_of_order {h : Heap} {o : OrderRef} {ov : Order} (ho : h.order o = some ov) :
    h.sizeOf o = ov.Size := by
  simp [Heap.sizeOf, ho]

theorem AddEffect.sizeOf_eq {h h' : Heap} {ob ob' : OrderBook} {price : F64} {o : OrderRef}
    {ov : Order} {l : LimitRef} {lv : Limit} (E : AddEffect h ob price o h' ob' ov l lv)
    (x : OrderRef) : h'.sizeOf x = h.sizeOf x := by
  by_cases hx : x = o
  · subst hx
    rw [sizeOf_of_order E.order_self, sizeOf_of_order E.order]
  · unfold Heap.sizeOf
    rw [E.order_other x hx]

theorem AddEffect.priceOf_old {h h' : Heap} {ob ob' : OrderBook} {price : F64} {o : OrderRef}
    {ov : Order} {l : LimitRef} {lv : Limit} (E : AddEffect h ob price o h' ob' ov l lv)
    {x : LimitRef} (hx : x < h.limits.length) : h'.priceOf x = h.priceOf x := by
  by_cases hxl : x = l
  · subst hxl
    rcases E.cases with ⟨-, hl, -, -⟩ | ⟨-, hn, -⟩
    · rw [priceOf_of_limit E.limit_self, priceOf_of_limit hl]
    · exact absurd hn (Nat.ne_of_lt hx)
  · unfold Heap.priceOf
    rw [E.limit_other x hxl hx]

theorem AddEffect.length_le {h h' : Heap} {ob ob' : OrderBook} {price : F64} {o : OrderRef}
    {ov : Order} {l : LimitRef} {lv : Limit} (E : AddEffect h ob price o h' ob' ov l lv) :
    h.limits.length ≤ h'.limits.length := by
  rcases E.cases with ⟨-, -, -, hlen⟩ | ⟨-, -, -, -, -, -, -, hlen⟩ <;> omega

/-- In the index of a well-formed side, a price is found exactly at the level of the
slice that carries it. -/
theorem BookInv.mapGet_iff {h : Heap} {ob : OrderBook} (I : BookInv h ob) (b : Bool) (p : F64)
    (l : LimitRef) :
    mapGet (ob.index b) p = some l ↔ l ∈ ob.side b ∧ F64.eq (h.priceOf l) p = true := by
  have hkeys : (ob.index b).map Prod.fst = (ob.side b).map h.priceOf := by
    rw [I.index b, List.map_map]; rfl
  constructor
  · intro H
    obtain ⟨hm, hnan⟩ := mapGet_mem H
    rw [I.index b] at hm
    obtain ⟨x, hx, heq⟩ := List.mem_map.mp hm
    cases heq
    exact ⟨hx, F64.eq_iff.mpr ⟨rfl, hnan⟩⟩
  · rintro ⟨hl, hp⟩
    obtain ⟨rfl, hnan⟩ := F64.eq_iff.mp hp
    apply mapGet_of_mem
    · rw [hkeys]; exact I.prices b
    · rw [I.index b]; exact List.mem_map.mpr ⟨l, hl, rfl⟩
    · exact hnan

theorem BookInv.mapGet_none_iff {h : Heap} {ob : OrderBook} (I : BookInv h ob) (b : Bool)
    (p : F64) :
    mapGet (ob.index b) p = none ↔ ∀ l ∈ ob.side b, F64.eq (h.priceOf l) p = false := by
  rw [mapGet_eq_none_iff, I.index b]
  constructor
  · intro H l hl
    exact H _ (List.mem_map.mpr ⟨l, hl, rfl⟩)
  · intro H e he
    obtain ⟨l, hl, rfl⟩ := List.mem_map.mp he
    exact H l hl

/-- On a well-formed book every pointer in an index addresses a level, so the nil test
after the map read never fires. -/
theorem BookInv.lookup_eq {h : Heap} {ob : OrderBook} (I : BookInv h ob) (b : Bool) (p : F64) :
    lookup h (ob.index b) p = mapGet (ob.index b) p := by
  cases hg : mapGet (ob.index b) p with
  | none => simp [lookup, hg]
  | some l =>
    have hl := ((I.mapGet_iff b p l).mp hg).1
    exact lookup_eq_some.mpr ⟨hg, limit_of_lt (I.valid b l hl)⟩

/-- The two ways an `Add` goes on a well-formed book: the level was there, on the
order's side and at the order's price, and the book is as before; or the price was new
to the side, and a fresh level went to the tail of that side's slice and index. -/
theorem AddEffect.side_cases {h h' : Heap} {ob ob' : OrderBook} {price : F64} {o : OrderRef}
    {ov : Order} {l : LimitRef} {lv : Limit} (E : AddEffect h ob price o h' ob' ov l lv)
    (I : BookInv h ob) :
    (l ∈ ob.side ov.Bid ∧ F64.eq (h.priceOf l) price = true ∧ h.limit l = some lv ∧ ob' = ob) ∨
    (l = h.limits.length ∧ lv = { Price := price, Orders := [], TotalVolume := 0 } ∧
      (∀ x ∈ ob.side ov.Bid, F64.eq (h.priceOf x) price = false) ∧
      (∀ b, ob'.side b = ob.side b ++ (if b = ov.Bid then [l] else [])) ∧
      (∀ b, ob'.index b = ob.index b ++ (if b = ov.Bid then [(price, l)] else []))) := by
  rcases E.cases with ⟨hget, hl, hob, -⟩ | ⟨hget, hn, hlv, h1, h2, h3, h4, -⟩
  · rw [I.lookup_eq] at hget
    have := (I.mapGet_iff ov.Bid price l).mp hget
    exact Or.inl ⟨this.1, this.2, hl, hob⟩
  · rw [I.lookup_eq] at hget
    refine Or.inr ⟨hn, hlv, (I.mapGet_none_iff ov.Bid price).mp hget, ?_, ?_⟩
    · intro b
      by_cases hb : b = ov.Bid
      · subst hb; simp [h1]
      · have hb' : b = !ov.Bid := by cases b <;> cases hv : ov.Bid <;> simp_all
        rw [if_neg hb, hb', h3]; simp
    · intro b
      by_cases hb : b = ov.Bid
      · subst hb; simp [h2, mapSet_of_none l hget]
      · have hb' : b = !ov.Bid := by cases b <;> cases hv : ov.Bid <;> simp_all
        rw [if_neg hb, hb', h4]; simp

theorem AddEffect.mem_side {h h' : Heap} {ob ob' : OrderBook} {price : F64} {o : OrderRef}
    {ov : Order} {l : LimitRef} {lv : Limit} (E : AddEffect h ob price o h' ob' ov l lv)
    (I : BookInv h ob) {b : Bool} {x : LimitRef} (hx : x ∈ ob'.side b) :
    x ∈ ob.side b ∨ (x = l ∧ b = ov.Bid ∧ l = h.limits.length) := by
  rcases E.side_cases I with ⟨-, -, -, hob⟩ | ⟨hn, -, -, hs, -⟩
  · rw [hob] at hx; exact Or.inl hx
  · rw [hs b] at hx
    rcases List.mem_append.mp hx with hx | hx
    · exact Or.inl hx
    · by_cases hb : b = ov.Bid
      · simp [hb] at hx; exact Or.inr ⟨hx, hb, hn⟩
      · simp [hb] at hx

theorem BookInv.add {h h' : Heap} {ob ob' : OrderBook} {price : F64} {o : OrderRef}
    {ov : Order} {l : LimitRef} {lv : Limit} (I : BookInv h ob)
    (E : AddEffect h ob price o h' ob' ov l lv) : BookInv h' ob' := by
  have hlen := E.length_le
  have hmapP : ∀ b, (ob.side b).map h'.priceOf = (ob.side b).map h.priceOf := fun b =>
    List.map_congr_left (fun x hx => E.priceOf_old (I.valid b x hx))
  have hmapI : ∀ b, (ob.side b).map (fun x => (h'.priceOf x, x)) =
      (ob.side b).map (fun x => (h.priceOf x, x)) := fun b =>
    List.map_congr_left (fun x hx => by rw [E.priceOf_old (I.valid b x hx)])
  have hsize : h'.sizeOf = h.sizeOf := funext E.sizeOf_eq
  have hlvOK : lv.TotalVolume = F64.sum (lv.Orders.map h.sizeOf) := by
    rcases E.side_cases I with ⟨hmem, -, hl, -⟩ | ⟨-, hlv, -⟩
    · exact I.volume _ l hmem lv hl
    · subst hlv; rfl
  have hpl : h'.priceOf l = lv.Price := by rw [priceOf_of_limit E.limit_self]
  have hsome : ∀ x, (h.order x).isSome = true → (h'.order x).isSome = true := by
    intro x hx
    by_cases hxo : x = o
    · rw [hxo, E.order_self]; rfl
    · rw [E.order_other x hxo]; exact hx
  have hlvQ : ∀ x ∈ lv.Orders, (h.order x).isSome = true := by
    rcases E.side_cases I with ⟨hmem, -, hl, -⟩ | ⟨-, hlv, -⟩
    · exact I.queued _ l hmem lv hl
    · subst hlv; simp
  refine ⟨?_, ?_, ?_, ?_, ?_, ?_, ?_⟩
  · intro b x hx
    rcases E.mem_side I hx with hx | ⟨hxl, -, -⟩
    · exact lt_of_lt_of_le (I.valid b x hx) hlen
    · rw [hxl]; exact limit_lt E.limit_self
  · intro b
    rcases E.side_cases I with ⟨-, -, -, hob⟩ | ⟨-, hlv, -, hs, hi⟩
    · rw [hob, I.index b]; exact (hmapI b).symm
    · rw [hi b, hs b, List.map_append, hmapI b, I.index b]
      by_cases hb : b = ov.Bid
      · simp [hb, hpl, hlv]
      · simp [hb]
  · intro b
    rcases E.side_cases I with ⟨-, -, -, hob⟩ | ⟨-, hlv, hnew, hs, -⟩
    · rw [hob, hmapP b]; exact I.prices b
    · rw [hs b, List.map_append, hmapP b]
      by_cases hb : b = ov.Bid
      · subst hb
        simp only [if_true, List.map_cons, List.map_nil, hpl, hlv]
        rw [List.pairwise_append]
        refine ⟨I.prices _, List.pairwise_singleton _ _, ?_⟩
        intro x hx y hy
        obtain ⟨z, hz, rfl⟩ := List.mem_map.mp hx
        rw [List.mem_singleton.mp hy]
        exact hnew z hz
      · simp only [if_neg hb, List.map_nil, List.append_nil]
        exact I.prices b
  · intro x hx hx'
    rcases E.mem_side I hx with h1 | ⟨hxl, hb, hn⟩
    · rcases E.mem_side I hx' with h2 | ⟨hxl', -, hn'⟩
      · exact I.disjoint x h1 h2
      · exact absurd (hxl'.trans hn') (Nat.ne_of_lt (I.valid _ x h1))
    · rcases E.mem_side I hx' with h2 | ⟨-, hb', -⟩
      · exact absurd (hxl.trans hn) (Nat.ne_of_lt (I.valid _ x h2))
      · rw [← hb] at hb'; cases hb'
  · intro b x hx xv hxv
    by_cases hxl : x = l
    · subst hxl
      rw [E.limit_self] at hxv
      cases hxv
      simp
    · rcases E.mem_side I hx with hx | ⟨h1, -, -⟩
      · rw [E.limit_other x hxl (I.valid b x hx)] at hxv
        exact I.nonempty b x hx xv hxv
      · exact absurd h1 hxl
  · intro b x hx xv hxv y hy
    by_cases hxl : x = l
    · subst hxl
      rw [E.limit_self] at hxv
      cases hxv
      rcases List.mem_append.mp hy with hy | hy
      · exact hsome y (hlvQ y hy)
      · rw [List.mem_singleton.mp hy, E.order_self]; rfl
    · rcases E.mem_side I hx with hx | ⟨h1, -, -⟩
      · rw [E.limit_other x hxl (I.valid b x hx)] at hxv
        exact hsome y (I.queued b x hx xv hxv y hy)
      · exact absurd h1 hxl
  · intro b x hx xv hxv
    rw [hsize]
    by_cases hxl : x = l
    · subst hxl
      rw [E.limit_self] at hxv
      cases hxv
      simp only [F64.sum, List.map_append, List.map_cons, List.map_nil, List.foldl_append,
        List.foldl_cons, List.foldl_nil]
      rw [sizeOf_of_order E.order, hlvOK]
      rfl
    · rcases E.mem_side I hx with hx | ⟨h1, -, -⟩
      · rw [E.limit_other x hxl (I.valid b x hx)] at hxv
        exact I.volume b x hx xv hxv
      · exact absurd h1 hxl

theorem BookInv.init (h : Heap) : BookInv h NewOrderBook := by
  refine ⟨?_, ?_, ?_, ?_, ?_, ?_, ?_⟩ <;> intros <;>
    simp_all [NewOrderBook, OrderBook.side, OrderBook.index]

theorem BookInv.step {h h' : Heap} {ob ob' : OrderBook} {price : F64} {o : OrderRef}
    {ms : List Match} (I : BookInv h ob) (H : PlaceOrder h ob price o = some (h', ob', ms)) :
    BookInv h' ob' := by
  obtain ⟨-, ov, -, hcase⟩ := PlaceOrder_effect H
  rcases hcase with ⟨-, rfl, rfl⟩ | ⟨-, l, lv, E⟩
  · exact I
  · exact I.add E

theorem BookInv.placeAll {calls : List (F64 × OrderRef)} {h h' : Heap} {ob ob' : OrderBook}
    (I : BookInv h ob) (H : placeAll h ob calls = some (h', ob')) : BookInv h' ob' := by
  induction calls generalizing h ob with
  | nil =>
    simp only [OB.placeAll] at H
    cases H
    exact I
  | cons c calls ih =>
    obtain ⟨price, o⟩ := c
    simp only [OB.placeAll] at H
    split at H
    · exact absurd H (by simp)
    · rename_i h1 ob1 ms hstep
      exact ih (I.step hstep) H

/-- The slice and the index of a side of a well-formed book: the index has one entry per
level of the slice, under the level's price; a level of the slice whose price is not NaN
is what the index yields at its price; a level the index yields at its own price is in
the slice; no two levels have `==` prices; and a key that is found is the price of the
level found. -/
theorem BookInv.inSync {h : Heap} {ob : OrderBook} (I : BookInv h ob) (b : Bool) :
    ob.index b = (ob.side b).map (fun l => (h.priceOf l, l)) ∧
    (∀ l ∈ ob.side b, ∃ lv, h.limit l = some lv ∧
      (lv.Price ≠ F64.nan → mapGet (ob.index b) lv.Price = some l)) ∧
    (∀ l lv, h.limit l = some lv → mapGet (ob.index b) lv.Price = some l → l ∈ ob.side b) ∧
    ((ob.side b).map h.priceOf).Pairwise (fun x y => F64.eq x y = false) ∧
    (∀ p l, mapGet (ob.index b) p = some l → l ∈ ob.side b ∧ h.priceOf l = p) := by
  refine ⟨I.index b, fun l hl => ?_, fun l lv _ hget => ?_, I.prices b, fun p l hget => ?_⟩
  · obtain ⟨lv, hlv⟩ := limit_of_lt (I.valid b l hl)
    refine ⟨lv, hlv, fun hnan => ?_⟩
    refine (I.mapGet_iff b _ l).mpr ⟨hl, F64.eq_iff.mpr ⟨priceOf_of_limit hlv, ?_⟩⟩
    rw [priceOf_of_limit hlv]; exact hnan
  · exact ((I.mapGet_iff b _ l).mp hget).1
  · obtain ⟨hl, hp⟩ := (I.mapGet_iff b p l).mp hget
    exact ⟨hl, (F64.eq_iff.mp hp).1⟩

/-! ## The queue at a price -/

theorem BookInv.side_unique {h : Heap} {ob : OrderBook} (I : BookInv h ob) {x : LimitRef}
    {b b' : Bool} (hx : x ∈ ob.side b) (hx' : x ∈ ob.side b') : b = b' := by
  cases b <;> cases b'
  · rfl
  · exact absurd hx (I.disjoint x hx')
  · exact absurd hx' (I.disjoint x hx)
  · rfl

theorem AddEffect.target {h h' : Heap} {ob ob' : OrderBook} {price : F64} {o : OrderRef}
    {ov : Order} {l : LimitRef} {lv : Limit} (E : AddEffect h ob price o h' ob' ov l lv)
    (I : BookInv h ob) : l ∈ ob'.side ov.Bid ∧ h'.priceOf l = price := by
  rcases E.side_cases I with ⟨hmem, hp, hl, hob⟩ | ⟨-, hlv, -, hs, -⟩
  · refine ⟨hob ▸ hmem, ?_⟩
    rw [E.priceOf_old (limit_lt hl)]; exact (F64.eq_iff.mp hp).1
  · refine ⟨by rw [hs]; simp, ?_⟩
    rw [priceOf_of_limit E.limit_self, hlv]

theorem AddEffect.side_mono {h h' : Heap} {ob ob' : OrderBook} {price : F64} {o : OrderRef}
    {ov : Order} {l : LimitRef} {lv : Limit} (E : AddEffect h ob price o h' ob' ov l lv)
    (I : BookInv h ob) {b : Bool} {x : LimitRef} (hx : x ∈ ob.side b) : x ∈ ob'.side b := by
  rcases E.side_cases I with ⟨-, -, -, hob⟩ | ⟨-, -, -, hs, -⟩
  · rw [hob]; exact hx
  · rw [hs]; exact List.mem_append_left _ hx

theorem queueAt_add {h h' : Heap} {ob ob' : OrderBook} {price : F64} {o : OrderRef}
    {ov : Order} {l : LimitRef} {lv : Limit} (I : BookInv h ob)
    (E : AddEffect h ob price o h' ob' ov l lv) (b : Bool) (p : F64) :
    queueAt h' ob' b p =
      queueAt h ob b p ++ (if F64.eq price p = true ∧ ov.Bid = b then [o] else []) := by
  have I' : BookInv h' ob' := I.add E
  by_cases hc : F64.eq price p = true ∧ ov.Bid = b
  · rw [if_pos hc]
    obtain ⟨hpp, rfl⟩ := hc
    obtain ⟨rfl, hnan⟩ := F64.eq_iff.mp hpp
    have hget' : mapGet (ob'.index ov.Bid) price = some l :=
      (I'.mapGet_iff _ _ _).mpr ⟨(E.target I).1, by rw [(E.target I).2]; exact hpp⟩
    rcases E.cases with ⟨hget, hl, -, -⟩ | ⟨hget, -, hlv, -⟩
    · rw [I.lookup_eq] at hget
      simp [queueAt, hget', E.limit_self, hget, hl]
    · rw [I.lookup_eq] at hget
      subst hlv
      unfold queueAt
      rw [hget', hget]
      simp only
      rw [E.limit_self]
  · rw [if_neg hc, List.append_nil]
    have hgeteq : mapGet (ob'.index b) p = mapGet (ob.index b) p := by
      apply Option.ext
      intro x
      rw [Option.mem_def, Option.mem_def, I'.mapGet_iff, I.mapGet_iff]
      constructor
      · rintro ⟨hx, hp⟩
        rcases E.mem_side I hx with hx' | ⟨hxl, hb, -⟩
        · exact ⟨hx', by rw [← E.priceOf_old (I.valid b x hx')]; exact hp⟩
        · exfalso
          apply hc
          rw [hxl, (E.target I).2] at hp
          exact ⟨hp, hb.symm⟩
      · rintro ⟨hx, hp⟩
        exact ⟨E.side_mono I hx, by rw [E.priceOf_old (I.valid b x hx)]; exact hp⟩
    unfold queueAt
    rw [hgeteq]
    cases hg : mapGet (ob.index b) p with
    | none => rfl
    | some x =>
      obtain ⟨hx, hp⟩ := (I.mapGet_iff b p x).mp hg
      have hxl : x ≠ l := by
        intro hxl
        rw [hxl] at hx hp
        rcases E.side_cases I with ⟨hmem, hpl, -, -⟩ | ⟨hn, -⟩
        · exact hc ⟨(F64.eq_iff.mp hpl).1 ▸ hp, I.side_unique hmem hx⟩
        · exact absurd hn (Nat.ne_of_lt (I.valid b l hx))
      simp only
      rw [E.limit_other x hxl (I.valid b x hx)]

theorem queueAt_step {h h' : Heap} {ob ob' : OrderBook} {price : F64} {o : OrderRef}
    {ms : List Match} (I : BookInv h ob) (H : PlaceOrder h ob price o = some (h', ob', ms))
    (b : Bool) (p : F64) :
    queueAt h' ob' b p = queueAt h ob b p ++ placed h [(price, o)] b p := by
  obtain ⟨-, ov, ho, hcase⟩ := PlaceOrder_effect H
  rcases hcase with ⟨hneg, rfl, rfl⟩ | ⟨hpos, l, lv, E⟩
  · simp [placed, Heap.rests, ho, hneg]
  · rw [queueAt_add I E b p]
    have hpl : placed h [(price, o)] b p =
        if F64.eq price p = true ∧ ov.Bid = b then [o] else [] := by
      by_cases hp : F64.eq price p = true <;> by_cases hb : ov.Bid = b <;>
        simp [placed, Heap.rests, ho, hpos, hp, hb]
    rw [hpl]

theorem rests_step {h h' : Heap} {ob ob' : OrderBook} {price : F64} {o : OrderRef}
    {ms : List Match} (H : PlaceOrder h ob price o = some (h', ob', ms)) :
    h'.rests = h.rests := by
  obtain ⟨-, ov, ho, hcase⟩ := PlaceOrder_effect H
  rcases hcase with ⟨-, rfl, -⟩ | ⟨-, l, lv, E⟩
  · rfl
  · funext b p c
    unfold Heap.rests
    by_cases hc : c.2 = o
    · rw [hc, E.order_self, ho]
    · rw [E.order_other c.2 hc]

theorem placed_cons (h : Heap) (c : F64 × OrderRef) (calls : List (F64 × OrderRef)) (b : Bool)
    (p : F64) : placed h (c :: calls) b p = placed h [c] b p ++ placed h calls b p := by
  unfold placed
  rw [← List.map_append, ← List.filter_append]
  rfl

theorem queueAt_placeAll {calls : List (F64 × OrderRef)} {h h' : Heap} {ob ob' : OrderBook}
    (I : BookInv h ob) (H : placeAll h ob calls = some (h', ob')) (b : Bool) (p : F64) :
    queueAt h' ob' b p = queueAt h ob b p ++ placed h calls b p := by
  induction calls generalizing h ob with
  | nil =>
    simp only [placeAll] at H
    cases H
    simp [placed]
  | cons c calls ih =>
    obtain ⟨price, o⟩ := c
    simp only [placeAll] at H
    split at H
    · exact absurd H (by simp)
    · rename_i h1 ob1 ms hstep
      rw [ih (I.step hstep) H, queueAt_step I hstep, placed_cons h (price, o) calls,
        List.append_assoc]
      unfold placed
      rw [rests_step hstep]

/-- The level a well-formed side holds at a price is the one whose queue `queueAt` reads. -/
theorem BookInv.queueAt_of_mem {h : Heap} {ob : OrderBook} (I : BookInv h ob) {b : Bool}
    {l : LimitRef} {lv : Limit} (hl : l ∈ ob.side b) (hlv : h.limit l = some lv)
    (hnan : lv.Price ≠ F64.nan) :
    queueAt h ob b lv.Price = lv.Orders := by
  have hget : mapGet (ob.index b) lv.Price = some l :=
    (I.mapGet_iff b _ l).mpr ⟨hl, F64.eq_iff.mpr ⟨priceOf_of_limit hlv, by
      rw [priceOf_of_limit hlv]; exact hnan⟩⟩
  simp [queueAt, hget, hlv]

theorem BookInv.level_iff_queueAt {h : Heap} {ob : OrderBook} (I : BookInv h ob) (b : Bool)
    (p : F64) :
    (∃ l ∈ ob.side b, F64.eq (h.priceOf l) p = true) ↔ queueAt h ob b p ≠ [] := by
  constructor
  · rintro ⟨l, hl, hp⟩
    obtain ⟨lv, hlv⟩ := limit_of_lt (I.valid b l hl)
    obtain ⟨hp, hnan⟩ := F64.eq_iff.mp hp
    rw [priceOf_of_limit hlv] at hp hnan
    rw [← hp, I.queueAt_of_mem hl hlv hnan]
    exact I.nonempty b l hl lv hlv
  · intro hq
    cases hg : mapGet (ob.index b) p with
    | none => simp [queueAt, hg] at hq
    | some l => exact ⟨l, (I.mapGet_iff b p l).mp hg⟩

theorem queueAt_init (h : Heap) (b : Bool) (p : F64) : queueAt h NewOrderBook b p = [] := by
  cases b <;> simp [queueAt, NewOrderBook, OrderBook.index, mapGet]

theorem placed_ne_nil_iff (h : Heap) (calls : List (F64 × OrderRef)) (b : Bool) (p : F64) :
    placed h calls b p ≠ [] ↔
      ∃ c ∈ calls, ∃ ov, F64.eq c.1 p = true ∧ h.order c.2 = some ov ∧ ov.Bid = b ∧
        0 < ov.Size := by
  unfold placed
  rw [Ne, List.map_eq_nil_iff, List.filter_eq_nil_iff]
  push_neg
  constructor
  · rintro ⟨c, hc, hr⟩
    unfold Heap.rests at hr
    cases ho : h.order c.2 with
    | none => simp [ho] at hr
    | some ov =>
      simp only [ho, Bool.and_eq_true, decide_eq_true_eq, beq_iff_eq] at hr
      exact ⟨c, hc, ov, hr.1.1, ho, hr.1.2, hr.2⟩
  · rintro ⟨c, hc, ov, hp, ho, hb, hpos⟩
    exact ⟨c, hc, by simp [Heap.rests, ho, hp, hb, hpos]⟩

/-- What a `PlaceOrder` call does to the slice of side `b` of a well-formed book: nothing,
unless the order is of that side, of positive size and at a price the side has no level
for, in which case the freshly allocated level goes to the tail. -/
theorem BookInv.step_side {h h' : Heap} {ob ob' : OrderBook} {price : F64} {o : OrderRef}
    {ov : Order} {ms : List Match} (I : BookInv h ob)
    (H : PlaceOrder h ob price o = some (h', ob', ms)) (ho : h.order o = some ov) (b : Bool) :
    ob'.side b = ob.side b ++
      (if ov.Bid = b ∧ 0 < ov.Size ∧ (∀ x ∈ ob.side b, F64.eq (h.priceOf x) price = false)
        then [h.limits.length] else []) := by
  obtain ⟨-, ov', ho', hcase⟩ := PlaceOrder_effect H
  rw [ho] at ho'; cases ho'
  rcases hcase with ⟨hneg, -, rfl⟩ | ⟨hpos, l, lv, E⟩
  · rw [if_neg (fun hc => hneg hc.2.1), List.append_nil]
  · rcases E.side_cases I with ⟨hmem, hp, -, hob⟩ | ⟨hn, -, hnew, hs, -⟩
    · have hin : ov.Bid = b → ¬ ∀ x ∈ ob.side b, F64.eq (h.priceOf x) price = false := by
        intro hb hall
        rw [← hb] at hall
        rw [hall l hmem] at hp
        exact Bool.noConfusion hp
      rw [hob, if_neg (fun hc => hin hc.1 hc.2.2), List.append_nil]
    · rw [hs b, hn]
      by_cases hb : b = ov.Bid
      · subst hb
        rw [if_pos rfl, if_pos ⟨rfl, hpos, hnew⟩]
      · have hb' : ¬ ov.Bid = b := fun hc => hb hc.symm
        rw [if_neg hb, if_neg (fun hc => hb' hc.1)]

theorem BookInv.step_priceOf {h h' : Heap} {ob ob' : OrderBook} {price : F64} {o : OrderRef}
    {ms : List Match} (I : BookInv h ob)
    (H : PlaceOrder h ob price o = some (h', ob', ms)) (b : Bool) :
    (∀ l ∈ ob.side b, h'.priceOf l = h.priceOf l) ∧
    (∀ l ∈ ob'.side b, l ∉ ob.side b → h'.priceOf l = price) := by
  obtain ⟨-, ov, ho, hcase⟩ := PlaceOrder_effect H
  rcases hcase with ⟨-, rfl, rfl⟩ | ⟨-, l, lv, E⟩
  · exact ⟨fun _ _ => rfl, fun l hl hnl => absurd hl hnl⟩
  · refine ⟨fun x hx => E.priceOf_old (I.valid b x hx), fun x hx hnx => ?_⟩
    rcases E.mem_side I hx with hx' | ⟨hxl, -, -⟩
    · exact absurd hx' hnx
    · rw [hxl]; exact (E.target I).2

theorem BookInv.key_iff_queueAt {h : Heap} {ob : OrderBook} (I : BookInv h ob) (b : Bool)
    (p : F64) : (mapGet (ob.index b) p).isSome = true ↔ queueAt h ob b p ≠ [] := by
  rw [← I.level_iff_queueAt, Option.isSome_iff_exists]
  exact ⟨fun ⟨l, hl⟩ => ⟨l, (I.mapGet_iff b p l).mp hl⟩,
    fun ⟨l, hl⟩ => ⟨l, (I.mapGet_iff b p l).mpr hl⟩⟩

theorem OrderBook.eq_of_sides {ob : OrderBook} {A B : List LimitRef} {AL BL : LimitMap}
    (h1 : ob.side true = B) (h2 : ob.side false = A) (h3 : ob.index true = BL)
    (h4 : ob.index false = AL) :
    ob = { Asks := A, Bids := B, AskLimits := AL, BidLimits := BL } := by
  cases ob
  simp only [OrderBook.side, OrderBook.index, if_true, Bool.false_eq_true, if_false] at h1 h2 h3 h4
  simp [h1, h2, h3, h4]

/-- A positive-size order at a price its side's index does not hold: `PlaceOrder` returns
no match, allocates the level at the next address with the order alone in its queue, and
appends it to the slice and index of the order's side; nothing else changes. -/
theorem PlaceOrder_miss {h : Heap} {ob : OrderBook} {p : F64} {o : OrderRef} {ov : Order}
    (ho : h.order o = some ov) (hpos : 0 < ov.Size)
    (hmiss : mapGet (ob.index ov.Bid) p = none) :
    ∃ h' ob', PlaceOrder h ob p o = some (h', ob', []) ∧
      h'.order o = some { ov with Limit := some h.limits.length } ∧
      (∀ o', o' ≠ o → h'.order o' = h.order o') ∧
      h'.limit h.limits.length = some { Price := p, Orders := [o], TotalVolume := ov.Size } ∧
      (∀ l', l' < h.limits.length → h'.limit l' = h.limit l') ∧
      h'.limits.length = h.limits.length + 1 ∧
      ob'.side ov.Bid = ob.side ov.Bid ++ [h.limits.length] ∧
      ob'.index ov.Bid = ob.index ov.Bid ++ [(p, h.limits.length)] ∧
      ob'.side (!ov.Bid) = ob.side (!ov.Bid) ∧
      ob'.index (!ov.Bid) = ob.index (!ov.Bid) := by
  obtain ⟨h', ob', hplace⟩ := PlaceOrder_total p ho
  obtain ⟨-, ov', ho', hcase⟩ := PlaceOrder_effect hplace
  rw [ho] at ho'; cases ho'
  rcases hcase with ⟨hneg, -, -⟩ | ⟨-, l, lv, E⟩
  · exact absurd hpos hneg
  · rcases E.cases with ⟨hget, -⟩ | ⟨-, hn, hlv, h1, h2, h3, h4, hlen⟩
    · rw [(lookup_eq_some.mp hget).1] at hmiss; cases hmiss
    · subst hn
      refine ⟨h', ob', hplace, E.order_self, E.order_other, ?_, ?_, hlen, h1, ?_, h3, h4⟩
      · subst hlv
        rw [E.limit_self]
        show some ({ Price := p, Orders := [] ++ [o], TotalVolume := 0 + ov.Size } : Limit) = _
        rw [F64.zero_add]
        rfl
      · intro l' hl'
        exact E.limit_other l' (Nat.ne_of_lt hl') hl'
      · rw [h2, mapSet_of_none _ hmiss]

/-! ## What a call leaves alone -/

theorem AddEffect.order_size {h h' : Heap} {ob ob' : OrderBook} {price : F64} {o : OrderRef}
    {ov : Order} {l : LimitRef} {lv : Limit} (E : AddEffect h ob price o h' ob' ov l lv)
    (x : OrderRef) : (h'.order x).map Order.Size = (h.order x).map Order.Size := by
  by_cases hx : x = o
  · rw [hx, E.order_self, E.order]; rfl
  · rw [E.order_other x hx]

/-- On a well-formed book an `Add` touches one level only: every level of the other side,
and every level of the order's side whose price is not `==` the call's price, is as
before. -/
theorem AddEffect.limit_frame {h h' : Heap} {ob ob' : OrderBook} {price : F64} {o : OrderRef}
    {ov : Order} {l : LimitRef} {lv : Limit} (E : AddEffect h ob price o h' ob' ov l lv)
    (I : BookInv h ob) {b : Bool} {x : LimitRef} (hx : x ∈ ob.side b)
    (hne : b ≠ ov.Bid ∨ F64.eq (h.priceOf x) price = false) : h'.limit x = h.limit x := by
  apply E.limit_other x _ (I.valid b x hx)
  intro hxl
  rcases E.side_cases I with ⟨hmem, hp, -, -⟩ | ⟨hn, -⟩
  · rw [← hxl] at hmem hp
    rcases hne with hb | hpx
    · exact hb (I.side_unique hx hmem)
    · rw [hpx] at hp
      exact Bool.noConfusion hp
  · exact absurd (hxl.trans hn) (Nat.ne_of_lt (I.valid b x hx))

theorem AddEffect.other_side {h h' : Heap} {ob ob' : OrderBook} {price : F64} {o : OrderRef}
    {ov : Order} {l : LimitRef} {lv : Limit} (E : AddEffect h ob price o h' ob' ov l lv)
    (I : BookInv h ob) {b : Bool} (hb : b ≠ ov.Bid) :
    ob'.side b = ob.side b ∧ ob'.index b = ob.index b := by
  rcases E.side_cases I with ⟨-, -, -, hob⟩ | ⟨-, -, -, hs, hi⟩
  · rw [hob]; exact ⟨rfl, rfl⟩
  · rw [hs b, hi b, if_neg hb, if_neg hb]; simp

/-! ## `DeleteOrder` -/

theorem deleteLoop_skip (o : OrderRef) : ∀ (n i : Nat) (q : List OrderRef),
    (∀ j, i ≤ j → q[j]? ≠ some o) → q.length - i ≤ n → deleteLoop o n i q = some q
  | 0, i, q, _, hn => by
    have : ¬ i < q.length := by omega
    simp [deleteLoop, this]
  | n + 1, i, q, hne, hn => by
    unfold deleteLoop
    split
    · rename_i x last hx hlast
      have hxo : x ≠ o := fun hxo => hne i (le_refl i) (hxo ▸ hx)
      rw [if_neg hxo]
      exact deleteLoop_skip o n (i + 1) q (fun j hj => hne j (by omega)) (by omega)
    · rfl

/-- The loop of `DeleteOrder` always ends within the bound `DeleteOrder` gives it. -/
theorem deleteLoop_total (o : OrderRef) : ∀ (n i : Nat) (q : List OrderRef),
    q.length - i ≤ n → ∃ q', deleteLoop o n i q = some q'
  | 0, i, q, hn => by
    have : ¬ i < q.length := by omega
    exact ⟨q, by simp [deleteLoop, this]⟩
  | n + 1, i, q, hn => by
    unfold deleteLoop
    split
    · rename_i x last hx hlast
      by_cases hxo : x = o
      · rw [if_pos hxo]
        apply deleteLoop_total o n (i + 1)
        simp only [List.length_dropLast, List.length_set]
        omega
      · rw [if_neg hxo]
        exact deleteLoop_total o n (i + 1) q (by omega)
    · exact ⟨q, rfl⟩

theorem swapLast_concat (b : List OrderRef) (y : OrderRef) :
    swapLast (b ++ [y]) = y :: b := by
  simp [swapLast]

theorem swapLast_perm (b : List OrderRef) : (swapLast b).Perm b := by
  rcases List.eq_nil_or_concat b with rfl | ⟨b', y, rfl⟩
  · simp [swapLast]
  · rw [List.concat_eq_append, swapLast_concat]
    exact (List.perm_append_singleton y b').symm

theorem set_dropLast_eq (a b : List OrderRef) (o : OrderRef) :
    ∃ last, (a ++ o :: b)[(a ++ o :: b).length - 1]? = some last ∧
      ((a ++ o :: b).set a.length last).dropLast = a ++ swapLast b := by
  rcases List.eq_nil_or_concat b with rfl | ⟨b', y, rfl⟩
  · refine ⟨o, by simp, ?_⟩
    simp [swapLast]
  · rw [List.concat_eq_append, swapLast_concat]
    refine ⟨y, ?_, ?_⟩
    · rw [← List.getLast?_eq_getElem?]
      have h1 : a ++ o :: (b' ++ [y]) = (a ++ o :: b') ++ [y] := by simp
      rw [h1, List.getLast?_concat]
    · have h2 : (a ++ o :: (b' ++ [y])).set a.length y = (a ++ y :: b') ++ [y] := by
        simp [List.set_append]
      rw [h2, List.dropLast_concat]

theorem deleteLoop_hit (o : OrderRef) (a b : List OrderRef) (ha : o ∉ a) (hb : o ∉ b) :
    ∀ (n i : Nat), i ≤ a.length → (a ++ o :: b).length - i ≤ n →
      deleteLoop o n i (a ++ o :: b) = some (a ++ swapLast b)
  | 0, i, hi, hn => by
    simp at hn
    omega
  | n + 1, i, hi, hn => by
    obtain ⟨last, hlast, hset⟩ := set_dropLast_eq a b o
    unfold deleteLoop
    rw [hlast]
    rcases Nat.lt_or_ge i a.length with hlt | hge
    · have hx : (a ++ o :: b)[i]? = some a[i] := by
        rw [List.getElem?_append_left hlt, List.getElem?_eq_getElem hlt]
      rw [hx]
      have hxo : a[i] ≠ o := fun h => ha (h ▸ List.getElem_mem hlt)
      simp only [if_neg hxo]
      exact deleteLoop_hit o a b ha hb n (i + 1) hlt (by omega)
    · have hia : i = a.length := le_antisymm hi hge
      subst hia
      have hx : (a ++ o :: b)[a.length]? = some o := by
        rw [List.getElem?_append_right (le_refl _)]; simp
      rw [hx]
      simp only [if_true]
      rw [hset]
      apply deleteLoop_skip
      · intro j _ hj
        have hm := List.getElem?_mem hj
        rcases List.mem_append.mp hm with h1 | h1
        · exact ha h1
        · exact hb ((swapLast_perm b).mem_iff.mp h1)
      · have : (a ++ swapLast b).length = a.length + b.length := by
          rw [List.length_append, (swapLast_perm b).length_eq]
        simp at hn
        omega

theorem sortByTimestamp_contract : SortContract sortByTimestamp := by
  intro ts q
  have hT : IsTotal OrderRef (fun a b => ts a ≤ ts b) := ⟨fun a b => le_total (ts a) (ts b)⟩
  have hTr : IsTrans OrderRef (fun a b => ts a ≤ ts b) := ⟨fun _ _ _ => le_trans⟩
  exact ⟨List.perm_insertionSort _ q, List.sorted_insertionSort _ q⟩

theorem tsOf_congr {h h' : Heap} {x : OrderRef} {v v' : Order} (h1 : h'.order x = some v')
    (h2 : h.order x = some v) (ht : v'.Timestamp = v.Timestamp) : h'.tsOf x = h.tsOf x := by
  simp [Heap.tsOf, h1, h2, ht]

theorem tsOf_congr_eq {h h' : Heap} {x : OrderRef} (heq : h'.order x = h.order x) :
    h'.tsOf x = h.tsOf x := by
  simp [Heap.tsOf, heq]

theorem sizeOf_congr_eq {h h' : Heap} {x : OrderRef} (heq : h'.order x = h.order x) :
    h'.sizeOf x = h.sizeOf x := by
  simp [Heap.sizeOf, heq]

/-- `DeleteOrder` on a level and an order that exist, when the loop leaves `q` and the
pointers of `q` address orders: the call returns, the level holds `q` sorted and its
volume less the order's size, the order's back-reference is nil, and no order's
`Timestamp` or `Size` and no other level changes. -/
theorem DeleteOrder_effect (sort : (OrderRef → Int) → List OrderRef → List OrderRef)
    {h : Heap} {l : LimitRef} {o : OrderRef} {lv : Limit} {ov : Order} {q : List OrderRef}
    (hl : h.limit l = some lv) (ho : h.order o = some ov)
    (hloop : deleteLoop o lv.Orders.length 0 lv.Orders = some q)
    (hq : ∀ x ∈ q, (h.order x).isSome = true) :
    ∃ h', DeleteOrder sort h l o = some h' ∧
      h'.limit l = some { Price := lv.Price, Orders := sort h.tsOf q,
                          TotalVolume := lv.TotalVolume - ov.Size } ∧
      h'.order o = some { Size := ov.Size, Bid := ov.Bid, Limit := none,
                          Timestamp := ov.Timestamp } ∧
      (∀ x, x ≠ o → h'.order x = h.order x) ∧
      (∀ x, x ≠ l → h'.limit x = h.limit x) ∧
      h'.tsOf = h.tsOf ∧ h'.sizeOf = h.sizeOf := by
  have hlt := limit_lt hl
  have hot := order_lt ho
  have hguard : ¬ (2 ≤ q.length ∧ ¬ (∀ x ∈ q, (h.order x).isSome = true)) :=
    fun hc => hc.2 hq
  have hres : DeleteOrder sort h l o = some
      { orders := h.orders.set o { ov with Limit := none }
        limits := h.limits.set l
          { lv with Orders := sort h.tsOf q, TotalVolume := lv.TotalVolume - ov.Size } } := by
    unfold DeleteOrder
    rw [hl]
    simp only
    rw [hloop]
    simp only
    rw [ho]
    simp only
    rw [if_neg hguard]
  have hself : Heap.order
      { orders := h.orders.set o { ov with Limit := none }
        limits := h.limits.set l
          { lv with Orders := sort h.tsOf q, TotalVolume := lv.TotalVolume - ov.Size } } o =
      some { ov with Limit := none } := by
    simp [Heap.order, hot]
  have hother : ∀ x, x ≠ o → Heap.order
      { orders := h.orders.set o { ov with Limit := none }
        limits := h.limits.set l
          { lv with Orders := sort h.tsOf q, TotalVolume := lv.TotalVolume - ov.Size } } x =
      h.order x := by
    intro x hx
    simp [Heap.order, List.getElem?_set_ne (Ne.symm hx)]
  refine ⟨_, hres, ?_, hself, hother, ?_, ?_, ?_⟩
  · simp [Heap.limit, hlt]
  · intro x hx
    simp [Heap.limit, List.getElem?_set_ne (Ne.symm hx)]
  · funext x
    by_cases hx : x = o
    · rw [hx]; exact tsOf_congr hself ho rfl
    · exact tsOf_congr_eq (hother x hx)
  · funext x
    by_cases hx : x = o
    · rw [hx, sizeOf_of_order hself, sizeOf_of_order ho]
    · exact sizeOf_congr_eq (hother x hx)

theorem deleteLoop_of_not_mem {o : OrderRef} {q : List OrderRef} (ho : o ∉ q) :
    deleteLoop o q.length 0 q = some q :=
  deleteLoop_skip o q.length 0 q (fun _ _ hj => ho (List.getElem?_mem hj)) (by omega)

theorem split_of_count_one {o : OrderRef} {q : List OrderRef} (hc : q.count o = 1) :
    ∃ a b, q = a ++ o :: b ∧ o ∉ a ∧ o ∉ b := by
  have hmem : o ∈ q := List.count_pos_iff.mp (by omega)
  obtain ⟨a, b, rfl⟩ := List.append_of_mem hmem
  rw [List.count_append, List.count_cons_self] at hc
  exact ⟨a, b, rfl, List.count_eq_zero.mp (by omega), List.count_eq_zero.mp (by omega)⟩

theorem erase_split {o : OrderRef} {a b : List OrderRef} (ha : o ∉ a) :
    (a ++ o :: b).erase o = a ++ b := by
  rw [List.erase_append_right _ ha, List.erase_cons_head]

theorem deleteLoop_of_split {o : OrderRef} {a b : List OrderRef} (ha : o ∉ a) (hb : o ∉ b) :
    deleteLoop o (a ++ o :: b).length 0 (a ++ o :: b) = some (a ++ swapLast b) :=
  deleteLoop_hit o a b ha hb _ 0 (Nat.zero_le _) (by omega)

theorem swapLast_split_perm {o : OrderRef} {a b : List OrderRef} (ha : o ∉ a) :
    (a ++ swapLast b).Perm ((a ++ o :: b).erase o) := by
  rw [erase_split ha]
  exact List.Perm.append_left a (swapLast_perm b)

/-- `DeleteOrder` of an order that occurs exactly once in the level's queue: the call
returns, and the new queue is the library sort of a rearrangement of the old queue with
the order erased. -/
theorem DeleteOrder_once (sort : (OrderRef → Int) → List OrderRef → List OrderRef)
    (hs : SortContract sort) {h : Heap} {l : LimitRef} {o : OrderRef} {lv : Limit}
    {ov : Order} (hl : h.limit l = some lv) (ho : h.order o = some ov)
    (hq : ∀ x ∈ lv.Orders, (h.order x).isSome = true) (hc : lv.Orders.count o = 1) :
    ∃ h' q', DeleteOrder sort h l o = some h' ∧
      h'.limit l = some { Price := lv.Price, Orders := q',
                          TotalVolume := lv.TotalVolume - ov.Size } ∧
      q'.Perm (lv.Orders.erase o) ∧ q'.Pairwise (fun a b => h'.tsOf a ≤ h'.tsOf b) ∧
      h'.order o = some { Size := ov.Size, Bid := ov.Bid, Limit := none,
                          Timestamp := ov.Timestamp } ∧
      h'.tsOf = h.tsOf := by
  obtain ⟨a, b, hsplit, ha, hb⟩ := split_of_count_one hc
  have hloop : deleteLoop o lv.Orders.length 0 lv.Orders = some (a ++ swapLast b) := by
    rw [hsplit]; exact deleteLoop_of_split ha hb
  have hperm : (a ++ swapLast b).Perm (lv.Orders.erase o) := by
    rw [hsplit]; exact swapLast_split_perm ha
  have hvalid : ∀ x ∈ a ++ swapLast b, (h.order x).isSome = true := fun x hx =>
    hq x (List.mem_of_mem_erase (hperm.mem_iff.mp hx))
  obtain ⟨h', hdel, hlim, hord, -, -, hts, -⟩ := DeleteOrder_effect sort hl ho hloop hvalid
  refine ⟨h', _, hdel, hlim, (hs _ _).1.trans hperm, ?_, hord, hts⟩
  rw [hts]
  exact (hs _ _).2

/-- A rearrangement that is in nondecreasing key order of a list that is in strictly
increasing key order is that list. -/
theorem eq_of_perm_of_increasing (ts : OrderRef → Int) {r e : List OrderRef}
    (hperm : r.Perm e) (hr : r.Pairwise (fun a b => ts a ≤ ts b))
    (he : e.Pairwise (fun a b => ts a < ts b)) : r = e := by
  have hne : e.Pairwise (fun a b => ts a ≠ ts b) := he.imp (fun hab => ne_of_lt hab)
  have hinj : ∀ x ∈ e, ∀ y ∈ e, x ≠ y → ts x ≠ ts y :=
    hne.forall (fun _ _ hxy => hxy.symm)
  have hnd : r.Nodup := hperm.nodup_iff.mpr (he.imp (fun hab heq => by simp [heq] at hab))
  have hr' : r.Pairwise (fun a b => ts a < ts b) := by
    have hboth := hr.and hnd
    refine hboth.imp_of_mem ?_
    intro x y hx hy hxy
    exact lt_of_le_of_ne hxy.1
      (hinj x (hperm.mem_iff.mp hx) y (hperm.mem_iff.mp hy) hxy.2)
  have hanti : IsAntisymm OrderRef (fun a b => ts a < ts b) :=
    ⟨fun _ _ h1 h2 => absurd h1 (not_lt.mpr (le_of_lt h2))⟩
  exact List.eq_of_perm_of_sorted hperm hr' he

/-! ## The volume of a level when no `+=` or `-=` rounds -/

theorem F64.isFin_zero : (0 : F64).isFin = true := by
  rw [F64.zero_def]; rfl

theorem F64.units_zero : (0 : F64).units = 0 := by
  rw [F64.zero_def]; rfl

theorem F64.eq_zero_of_units {a : F64} (hf : a.isFin = true) (hu : a.units = 0) : a = 0 := by
  rw [F64.zero_def]
  cases a with
  | fin z ok =>
    have hz : z = 0 := hu
    subst hz
    rfl
  | inf neg => exact Bool.noConfusion hf
  | nan => exact Bool.noConfusion hf

theorem F64.units_pos {s : F64} (hpos : 0 < s) (hf : s.isFin = true) : 0 < s.units := by
  have h1 : F64.lt 0 s = true := hpos
  rw [F64.zero_def] at h1
  cases s with
  | fin z ok => simpa [F64.lt, F64.units] using h1
  | inf neg => exact Bool.noConfusion hf
  | nan => exact Bool.noConfusion hf

theorem F64.eq_zero_iff {a : F64} (hf : a.isFin = true) :
    F64.eq a 0 = true ↔ a.units = 0 := by
  constructor
  · intro H
    rw [(F64.eq_iff.mp H).1, F64.units_zero]
  · intro H
    have ha := F64.eq_zero_of_units hf H
    refine F64.eq_iff.mpr ⟨ha, ?_⟩
    intro hn
    rw [hn] at hf
    exact Bool.noConfusion hf

theorem volumeOf_of_limit {h : Heap} {l : LimitRef} {lv : Limit} (hl : h.limit l = some lv) :
    h.volumeOf l = lv.TotalVolume := by
  simp [Heap.volumeOf, hl]

theorem LevelReachExact.toLevelReach
    {sort : (OrderRef → Int) → List OrderRef → List OrderRef} {l : LimitRef} {h0 h : Heap}
    (R : LevelReachExact sort l h0 h) : LevelReach sort l h0 h := by
  induction R with
  | start => exact LevelReach.start
  | add _ ho hpos hnot _ hadd ih => exact LevelReach.add ih ho hpos hnot hadd
  | delete _ hmem _ hdel ih => exact LevelReach.delete ih hmem hdel

/-- On a level reached from `NewLimit` by `AddOrder` calls with positive-size orders not
yet queued and `DeleteOrder` calls on queued orders, none of which rounds: the queue has
no duplicates, holds valid orders of positive size, and `TotalVolume` is finite and is
exactly the sum of their sizes (in units of `2^-1074`). -/
theorem LevelReachExact.volume_is_sum
    {sort : (OrderRef → Int) → List OrderRef → List OrderRef}
    (hs : SortContract sort) {h0 : Heap} {price : F64} {h : Heap}
    (R : LevelReachExact sort h0.limits.length (NewLimit h0 price).1 h) :
    ∃ lv, h.limit h0.limits.length = some lv ∧ lv.Orders.Nodup ∧
      (∀ x ∈ lv.Orders, (h.order x).isSome = true ∧ 0 < (h.sizeOf x).units) ∧
      lv.TotalVolume.isFin = true ∧
      lv.TotalVolume.units = (lv.Orders.map (fun x => (h.sizeOf x).units)).sum := by
  induction R with
  | start =>
    exact ⟨_, NewLimit_limit_new h0 price, List.nodup_nil, by simp, F64.isFin_zero,
      by simp [F64.units_zero]⟩
  | @add h h' o ov _ ho hpos hnot hex hadd ih =>
    obtain ⟨lv, hl, hnd, hval, hfin, hvol⟩ := ih
    have hq : h.queueOf h0.limits.length = lv.Orders := by simp [Heap.queueOf, hl]
    rw [hq] at hnot
    rw [volumeOf_of_limit hl] at hex
    obtain ⟨-, hsf, hrf, hru⟩ := hex
    have hsize : h'.sizeOf = h.sizeOf := by
      funext x
      by_cases hx : x = o
      · rw [hx, sizeOf_of_order (AddOrder_order_self hadd ho), sizeOf_of_order ho]
      · exact sizeOf_congr_eq (AddOrder_order_other hadd hx)
    have hsome : ∀ x, (h.order x).isSome = true → (h'.order x).isSome = true := by
      intro x hx
      by_cases hxo : x = o
      · rw [hxo, AddOrder_order_self hadd ho]; rfl
      · rw [AddOrder_order_other hadd hxo]; exact hx
    refine ⟨_, AddOrder_limit_self hadd ho hl, ?_, ?_, hrf, ?_⟩
    · exact List.Nodup.append hnd (List.nodup_singleton o) (List.disjoint_singleton.mpr hnot)
    · intro x hx
      rw [hsize]
      rcases List.mem_append.mp hx with hx | hx
      · exact ⟨hsome x (hval x hx).1, (hval x hx).2⟩
      · rw [List.mem_singleton.mp hx]
        exact ⟨hsome o (by rw [ho]; rfl), by
          rw [sizeOf_of_order ho]; exact F64.units_pos hpos hsf⟩
    · rw [hsize]
      simp only [List.map_append, List.map_cons, List.map_nil, List.sum_append,
        List.sum_cons, List.sum_nil, Int.add_zero]
      rw [hru, hvol, sizeOf_of_order ho]
  | @delete h h' o _ hmem hex hdel ih =>
    obtain ⟨lv, hl, hnd, hval, hfin, hvol⟩ := ih
    have hq : h.queueOf h0.limits.length = lv.Orders := by simp [Heap.queueOf, hl]
    rw [hq] at hmem
    rw [volumeOf_of_limit hl] at hex
    obtain ⟨-, -, hrf, hru⟩ := hex
    obtain ⟨ov, ho⟩ := Option.isSome_iff_exists.mp (hval o hmem).1
    rw [sizeOf_of_order ho] at hrf hru
    have hc : lv.Orders.count o = 1 := List.count_eq_one_of_mem hnd hmem
    obtain ⟨a, b, hsplit, ha, hb⟩ := split_of_count_one hc
    have hloop' : deleteLoop o lv.Orders.length 0 lv.Orders = some (a ++ swapLast b) := by
      rw [hsplit]; exact deleteLoop_of_split ha hb
    have hperm : (a ++ swapLast b).Perm (lv.Orders.erase o) := by
      rw [hsplit]; exact swapLast_split_perm ha
    have hvalid : ∀ x ∈ a ++ swapLast b, (h.order x).isSome = true := fun x hx =>
      (hval x (List.mem_of_mem_erase (hperm.mem_iff.mp hx))).1
    obtain ⟨h'', hdel', hlim, hself, hoth, -, -, hsz⟩ :=
      DeleteOrder_effect sort hl ho hloop' hvalid
    rw [hdel] at hdel'
    cases hdel'
    have hperm' : (sort h.tsOf (a ++ swapLast b)).Perm (lv.Orders.erase o) :=
      (hs _ _).1.trans hperm
    have hsome : ∀ x, (h.order x).isSome = true → (h'.order x).isSome = true := by
      intro x hx
      by_cases hxo : x = o
      · rw [hxo, hself]; rfl
      · rw [hoth x hxo]; exact hx
    refine ⟨_, hlim, hperm'.nodup_iff.mpr (hnd.erase o), ?_, hrf, ?_⟩
    · intro x hx
      have hx' := List.mem_of_mem_erase (hperm'.mem_iff.mp hx)
      rw [hsz]
      exact ⟨hsome x (hval x hx').1, (hval x hx').2⟩
    · rw [hsz]
      simp only
      have hsum := List.sum_map_erase (fun x => (h.sizeOf x).units) hmem
      simp only [sizeOf_of_order ho] at hsum
      rw [(hperm'.map (fun x => (h.sizeOf x).units)).sum_eq, hru, hvol, ← hsum]
      omega

/-! ## Claims -/

/-- C10, counterexample: on a level of `TotalVolume` `10^16`, `AddOrder` of an order of size
1 leaves `TotalVolume` at `10^16`, since `float64` has no value `10^16 + 1`: the volume has
not grown by the order's `Size`. -/
theorem AddOrder_volume_rounds :
    ∃ h', AddOrder ⟨[⟨10000000000000000, true, some 0, 1⟩, ⟨1, true, none, 2⟩],
                    [⟨100, [0], 10000000000000000⟩]⟩ 0 1 = some h' ∧
      h'.volumeOf 0 = 10000000000000000 ∧
      (h'.volumeOf 0).units ≠ (10000000000000000 : F64).units + (1 : F64).units :=
  ⟨⟨[⟨10000000000000000, true, some 0, 1⟩, ⟨1, true, some 0, 2⟩],
     [⟨100, [0, 1], 10000000000000000⟩]⟩, by decide!, by decide!, by decide!⟩

/-- C10, as the code has it: for a level `l` (value `lv`) and an order `o` (value `ov`),
`AddOrder` returns, the queue of `l` becomes the old queue followed by `o` (one longer), the
order's `Limit` back-reference is `l`, `TotalVolume` becomes the `float64` sum of the old
`TotalVolume` and the order's `Size` (the exact sum rounded to the nearest `float64`), and
the level's `Price` and the order's `Size`, `Bid` and `Timestamp` are unchanged. -/
theorem AddOrder_appends (h : Heap) (l : LimitRef) (o : OrderRef) (lv : Limit) (ov : Order)
    (hl : h.limit l = some lv) (ho : h.order o = some ov) :
    ∃ h', AddOrder h l o = some h' ∧
      h'.limit l = some { Price := lv.Price, Orders := lv.Orders ++ [o],
                          TotalVolume := lv.TotalVolume + ov.Size } ∧
      (lv.Orders ++ [o]).length = lv.Orders.length + 1 ∧
      h'.order o = some { Size := ov.Size, Bid := ov.Bid, Limit := some l,
                          Timestamp := ov.Timestamp } := by
  refine ⟨_, AddOrder_of_valid ho hl, ?_, by simp, ?_⟩
  · exact AddOrder_limit_self (AddOrder_of_valid ho hl) ho hl
  · exact AddOrder_order_self (AddOrder_of_valid ho hl) ho

theorem AddOrder_appends_witness :
    (Heap.limit ⟨[⟨8, true, none, 2⟩], [⟨100, [5], 3⟩]⟩ 0 = some ⟨100, [5], 3⟩ ∧
      Heap.order ⟨[⟨8, true, none, 2⟩], [⟨100, [5], 3⟩]⟩ 0 = some ⟨8, true, none, 2⟩ ∧
      (3 : F64) + 8 = 11) ∧
    ∃ h', AddOrder ⟨[⟨8, true, none, 2⟩], [⟨100, [5], 3⟩]⟩ 0 0 = some h' ∧
      h'.limit 0 = some { Price := 100, Orders := [5] ++ [0], TotalVolume := 3 + 8 } ∧
      ([5] ++ [0]).length = [5].length + 1 ∧
      h'.order 0 = some { Size := 8, Bid := true, Limit := some 0, Timestamp := 2 } :=
  ⟨⟨by decide!, by decide!, by decide!⟩,
    AddOrder_appends ⟨[⟨8, true, none, 2⟩], [⟨100, [5], 3⟩]⟩ 0 0 ⟨100, [5], 3⟩
      ⟨8, true, none, 2⟩ (by decide!) (by decide!)⟩

/-- C9: on the empty book, `PlaceOrder` of an order of size `s > 0` at price `p` returns
no matches, leaves the order's `Size` equal to `s`, and yields a book whose only level
(price `p`, queue exactly that order, `TotalVolume` `s`) is on the order's side, indexed
under `p` only, the other side's slice and index staying empty. -/
theorem PlaceOrder_on_empty_book (h : Heap) (p s : F64) (o : OrderRef) (ov : Order)
    (ho : h.order o = some ov) (hs : ov.Size = s) (hpos : 0 < s) :
    ∃ h' ob' l, PlaceOrder h NewOrderBook p o = some (h', ob', []) ∧
      (h'.order o).map Order.Size = some s ∧
      h'.limit l = some { Price := p, Orders := [o], TotalVolume := s } ∧
      ob' = (if ov.Bid then { Asks := [], Bids := [l], AskLimits := [], BidLimits := [(p, l)] }
             else { Asks := [l], Bids := [], AskLimits := [(p, l)], BidLimits := [] }) := by
  have hmiss : mapGet (NewOrderBook.index ov.Bid) p = none := by
    cases ov.Bid <;> rfl
  obtain ⟨h', ob', hplace, ho', -, hl, -, -, s1, i1, s1', i1'⟩ :=
    PlaceOrder_miss ho (hs ▸ hpos) hmiss
  refine ⟨h', ob', h.limits.length, hplace, ?_, ?_, ?_⟩
  · rw [ho', ← hs]; rfl
  · rw [hl, hs]
  · cases hb : ov.Bid
    · rw [hb] at s1 i1 s1' i1'
      simp only [Bool.false_eq_true, if_false]
      exact OrderBook.eq_of_sides s1' s1 i1' i1
    · rw [hb] at s1 i1 s1' i1'
      simp only [if_true]
      exact OrderBook.eq_of_sides s1 s1' i1 i1'

theorem PlaceOrder_on_empty_book_witness :
    (testHeap.order 0 = some ⟨10, true, none, 1⟩ ∧ (0 : F64) < 10) ∧
    ∃ h' ob' l, PlaceOrder testHeap NewOrderBook 100 0 = some (h', ob', []) ∧
      (h'.order 0).map Order.Size = some 10 ∧
      h'.limit l = some { Price := 100, Orders := [0], TotalVolume := 10 } ∧
      ob' = (if (⟨10, true, none, 1⟩ : Order).Bid
             then { Asks := [], Bids := [l], AskLimits := [], BidLimits := [(100, l)] }
             else { Asks := [l], Bids := [], AskLimits := [(100, l)], BidLimits := [] }) :=
  ⟨⟨by decide!, by decide!⟩,
    PlaceOrder_on_empty_book testHeap 100 10 0 ⟨10, true, none, 1⟩ (by decide!) rfl
      (by decide!)⟩

/-- C6: conservation of size.  For every book, every price and every order, `PlaceOrder`
returns, and the order's `Size` before the call equals the (`float64`) sum of `SizeFilled`
over the returned matches plus the order's `Size` after the call. -/
theorem PlaceOrder_conserves_size (h : Heap) (ob : OrderBook) (price : F64) (o : OrderRef)
    (ov : Order) (ho : h.order o = some ov) :
    ∃ h' ob' ms ov', PlaceOrder h ob price o = some (h', ob', ms) ∧ h'.order o = some ov' ∧
      ov.Size = F64.sum (ms.map Match.SizeFilled) + ov'.Size := by
  obtain ⟨h', ob', hplace⟩ := PlaceOrder_total price ho
  obtain ⟨-, ov', ho', hcase⟩ := PlaceOrder_effect hplace
  rw [ho] at ho'; cases ho'
  have hsum : ∀ s : F64, s = F64.sum (([] : List Match).map Match.SizeFilled) + s := by
    intro s
    show s = (0 : F64) + s
    rw [F64.zero_add]
  rcases hcase with ⟨-, rfl, -⟩ | ⟨-, l, lv, heff⟩
  · exact ⟨h', ob', [], ov, hplace, ho, hsum _⟩
  · exact ⟨h', ob', [], _, hplace, heff.order_self, hsum _⟩

theorem PlaceOrder_conserves_size_witness :
    queueHeapBids.order 2 = some ⟨6, false, none, 3⟩ ∧
    ∃ h' ob' ms ov', PlaceOrder queueHeapBids queueBookBids 100 2 = some (h', ob', ms) ∧
      h'.order 2 = some ov' ∧
      (⟨6, false, none, 3⟩ : Order).Size = F64.sum (ms.map Match.SizeFilled) + ov'.Size :=
  ⟨by decide!,
    PlaceOrder_conserves_size queueHeapBids queueBookBids 100 2 ⟨6, false, none, 3⟩
      (by decide!)⟩

/-- C7, counterexample: after `PlaceOrder` of a bid at the price NaN on `NewOrderBook`, the
level is in `Bids` and `BidLimits` holds an entry for it, but `BidLimits` at the level's
own `Price` yields nothing: no key `==` NaN. -/
theorem nan_level_not_found_in_index :
    ∃ h ob lv, PlaceOrder testHeap NewOrderBook F64.nan 0 = some (h, ob, []) ∧
      0 ∈ ob.Bids ∧ h.limit 0 = some lv ∧ ob.BidLimits = [(lv.Price, 0)] ∧
      mapGet ob.BidLimits lv.Price = none :=
  ⟨{ orders := [⟨10, true, some 0, 1⟩, ⟨2000, true, none, 2⟩, ⟨3000, true, none, 3⟩]
     limits := [⟨F64.nan, [0], 10⟩] },
   { Asks := [], Bids := [0], AskLimits := [], BidLimits := [(F64.nan, 0)] },
   ⟨F64.nan, [0], 10⟩, by decide!, by decide!, by decide!, by decide!, by decide!⟩

/-- C7, as the code has it: in every book reached from `NewOrderBook` by a sequence of
`PlaceOrder` calls, the slice and the index of each side have the same members: `BidLimits`
has exactly one entry per level of `Bids`, keyed by the level's `Price`; every level of
`Bids` is a level in memory, and if its `Price` is not NaN, `BidLimits` yields it at its
`Price`; a level that `BidLimits` yields at its own `Price` is in `Bids`; no two levels of
`Bids` have `==` prices; and every key at which `BidLimits` yields a level is the `Price`
of that level, which is in `Bids`.  Likewise for `Asks` and `AskLimits`. -/
theorem reachable_index_in_sync (h0 : Heap) (calls : List (F64 × OrderRef)) (h : Heap)
    (ob : OrderBook) (H : placeAll h0 NewOrderBook calls = some (h, ob)) :
    (ob.BidLimits = ob.Bids.map (fun l => (h.priceOf l, l)) ∧
      (∀ l ∈ ob.Bids, ∃ lv, h.limit l = some lv ∧
        (lv.Price ≠ F64.nan → mapGet ob.BidLimits lv.Price = some l)) ∧
      (∀ l lv, h.limit l = some lv → mapGet ob.BidLimits lv.Price = some l → l ∈ ob.Bids) ∧
      (ob.Bids.map h.priceOf).Pairwise (fun x y => F64.eq x y = false) ∧
      (∀ p l, mapGet ob.BidLimits p = some l → l ∈ ob.Bids ∧ h.priceOf l = p)) ∧
    (ob.AskLimits = ob.Asks.map (fun l => (h.priceOf l, l)) ∧
      (∀ l ∈ ob.Asks, ∃ lv, h.limit l = some lv ∧
        (lv.Price ≠ F64.nan → mapGet ob.AskLimits lv.Price = some l)) ∧
      (∀ l lv, h.limit l = some lv → mapGet ob.AskLimits lv.Price = some l → l ∈ ob.Asks) ∧
      (ob.Asks.map h.priceOf).Pairwise (fun x y => F64.eq x y = false) ∧
      (∀ p l, mapGet ob.AskLimits p = some l → l ∈ ob.Asks ∧ h.priceOf l = p)) := by
  have I : BookInv h ob := (BookInv.init h0).placeAll H
  exact ⟨I.inSync true, I.inSync false⟩

theorem reachable_index_in_sync_witness :
    placeAll testHeap NewOrderBook [(18000, 0), (18000, 1), (17000, 2)] =
      some (testHeapPlaced, testBookPlaced) ∧
    (testBookPlaced.BidLimits =
        testBookPlaced.Bids.map (fun l => (testHeapPlaced.priceOf l, l)) ∧
      (∀ l ∈ testBookPlaced.Bids, ∃ lv, testHeapPlaced.limit l = some lv ∧
        (lv.Price ≠ F64.nan → mapGet testBookPlaced.BidLimits lv.Price = some l)) ∧
      (∀ l lv, testHeapPlaced.limit l = some lv →
        mapGet testBookPlaced.BidLimits lv.Price = some l → l ∈ testBookPlaced.Bids) ∧
      (testBookPlaced.Bids.map testHeapPlaced.priceOf).Pairwise
        (fun x y => F64.eq x y = false) ∧
      (∀ p l, mapGet testBookPlaced.BidLimits p = some l →
        l ∈ testBookPlaced.Bids ∧ testHeapPlaced.priceOf l = p)) ∧
    (testBookPlaced.AskLimits =
        testBookPlaced.Asks.map (fun l => (testHeapPlaced.priceOf l, l)) ∧
      (∀ l ∈ testBookPlaced.Asks, ∃ lv, testHeapPlaced.limit l = some lv ∧
        (lv.Price ≠ F64.nan → mapGet testBookPlaced.AskLimits lv.Price = some l)) ∧
      (∀ l lv, testHeapPlaced.limit l = some lv →
        mapGet testBookPlaced.AskLimits lv.Price = some l → l ∈ testBookPlaced.Asks) ∧
      (testBookPlaced.Asks.map testHeapPlaced.priceOf).Pairwise
        (fun x y => F64.eq x y = false) ∧
      (∀ p l, mapGet testBookPlaced.AskLimits p = some l →
        l ∈ testBookPlaced.Asks ∧ testHeapPlaced.priceOf l = p)) :=
  ⟨by decide!, reachable_index_in_sync testHeap [(18000, 0), (18000, 1), (17000, 2)]
    testHeapPlaced testBookPlaced (by decide!)⟩

/-- C2, counterexample: placing a bid at 17000 and then a bid at 18000 on `NewOrderBook`
leaves `Bids` with prices 17000, 18000 in that order, which is not descending. -/
theorem bids_not_kept_descending :
    ∃ h ob, placeAll testHeap NewOrderBook [(17000, 2), (18000, 0)] = some (h, ob) ∧
      ob.Bids.map h.priceOf = [17000, 18000] ∧
      ¬ (ob.Bids.map h.priceOf).Pairwise (fun x y => x ≥ y) :=
  ⟨{ orders := [⟨10, true, some 1, 1⟩, ⟨2000, true, none, 2⟩, ⟨3000, true, some 0, 3⟩]
     limits := [⟨17000, [2], 3000⟩, ⟨18000, [0], 10⟩] },
   { Asks := [], Bids := [0, 1], AskLimits := [], BidLimits := [(17000, 0), (18000, 1)] },
   by decide!, by decide!, by decide!⟩

/-- C2, as the code has it: on every book reached from `NewOrderBook` by `PlaceOrder` calls,
a further `PlaceOrder` returns and keeps `Bids` and `Asks` in order of level creation.  Each
slice is the old slice, followed by the newly allocated level exactly when the order is of
that side, of positive size, and at a price that no level of that slice has (no level's
price `==` it); old levels keep their prices and the new level carries the call's price.
The new level is at the tail whatever its price. -/
theorem PlaceOrder_appends_new_level (h0 : Heap) (calls : List (F64 × OrderRef)) (h : Heap)
    (ob : OrderBook) (H : placeAll h0 NewOrderBook calls = some (h, ob)) (price : F64)
    (o : OrderRef) (ov : Order) (ho : h.order o = some ov) :
    ∃ h' ob', PlaceOrder h ob price o = some (h', ob', []) ∧
      ob'.Bids = ob.Bids ++
        (if ov.Bid = true ∧ 0 < ov.Size ∧ (∀ x ∈ ob.Bids, F64.eq (h.priceOf x) price = false)
          then [h.limits.length] else []) ∧
      ob'.Asks = ob.Asks ++
        (if ov.Bid = false ∧ 0 < ov.Size ∧ (∀ x ∈ ob.Asks, F64.eq (h.priceOf x) price = false)
          then [h.limits.length] else []) ∧
      (∀ l ∈ ob.Bids ++ ob.Asks, h'.priceOf l = h.priceOf l) ∧
      (∀ l ∈ ob'.Bids, l ∉ ob.Bids → h'.priceOf l = price) ∧
      (∀ l ∈ ob'.Asks, l ∉ ob.Asks → h'.priceOf l = price) := by
  have I : BookInv h ob := (BookInv.init h0).placeAll H
  obtain ⟨h', ob', hplace⟩ := PlaceOrder_total price ho
  refine ⟨h', ob', hplace, I.step_side hplace ho true, I.step_side hplace ho false, ?_,
    (I.step_priceOf hplace true).2, (I.step_priceOf hplace false).2⟩
  intro l hl
  rcases List.mem_append.mp hl with hl | hl
  · exact (I.step_priceOf hplace true).1 l hl
  · exact (I.step_priceOf hplace false).1 l hl

theorem PlaceOrder_appends_new_level_witness :
    (placeAll testHeap NewOrderBook [(17000, 2)] = some (lowBidHeap, lowBidBook) ∧
      lowBidHeap.order 0 = some ⟨10, true, none, 1⟩) ∧
    ∃ h' ob', PlaceOrder lowBidHeap lowBidBook 18000 0 = some (h', ob', []) ∧
      ob'.Bids = lowBidBook.Bids ++
        (if (⟨10, true, none, 1⟩ : Order).Bid = true ∧ 0 < (⟨10, true, none, 1⟩ : Order).Size ∧
            (∀ x ∈ lowBidBook.Bids, F64.eq (lowBidHeap.priceOf x) 18000 = false)
          then [lowBidHeap.limits.length] else []) ∧
      ob'.Asks = lowBidBook.Asks ++
        (if (⟨10, true, none, 1⟩ : Order).Bid = false ∧ 0 < (⟨10, true, none, 1⟩ : Order).Size ∧
            (∀ x ∈ lowBidBook.Asks, F64.eq (lowBidHeap.priceOf x) 18000 = false)
          then [lowBidHeap.limits.length] else []) ∧
      (∀ l ∈ lowBidBook.Bids ++ lowBidBook.Asks, h'.priceOf l = lowBidHeap.priceOf l) ∧
      (∀ l ∈ ob'.Bids, l ∉ lowBidBook.Bids → h'.priceOf l = 18000) ∧
      (∀ l ∈ ob'.Asks, l ∉ lowBidBook.Asks → h'.priceOf l = 18000) :=
  ⟨⟨by decide!, by decide!⟩,
    PlaceOrder_appends_new_level testHeap [(17000, 2)] lowBidHeap lowBidBook (by decide!)
      18000 0 ⟨10, true, none, 1⟩ (by decide!)⟩

/-- C3, counterexample: after a bid of 10 at 100 and an ask of 10 at 100 on
`NewOrderBook`, the price 100 is a key of `BidLimits` and of `AskLimits`. -/
theorem price_key_of_both_indices :
    ∃ h ob, placeAll crossHeap NewOrderBook [(100, 0), (100, 1)] = some (h, ob) ∧
      ∃ p, (mapGet ob.BidLimits p).isSome = true ∧ (mapGet ob.AskLimits p).isSome = true :=
  ⟨crossHeapPlaced, crossBookPlaced, by decide!, 100, by decide!, by decide!⟩

/-- C3, as the code has it: in every book reached from `NewOrderBook` by a sequence of
`PlaceOrder` calls, a price is a key of both `BidLimits` and `AskLimits` exactly when the
sequence placed a positive-size bid and a positive-size ask at that price (a price `==`
it). -/
theorem price_in_both_indices_iff (h0 : Heap) (calls : List (F64 × OrderRef)) (h : Heap)
    (ob : OrderBook) (H : placeAll h0 NewOrderBook calls = some (h, ob)) (p : F64) :
    ((mapGet ob.BidLimits p).isSome = true ∧ (mapGet ob.AskLimits p).isSome = true) ↔
    ((∃ c ∈ calls, ∃ ov, F64.eq c.1 p = true ∧ h0.order c.2 = some ov ∧ ov.Bid = true ∧
        0 < ov.Size) ∧
     (∃ c ∈ calls, ∃ ov, F64.eq c.1 p = true ∧ h0.order c.2 = some ov ∧ ov.Bid = false ∧
        0 < ov.Size)) := by
  have I : BookInv h ob := (BookInv.init h0).placeAll H
  have key : ∀ b, (mapGet (ob.index b) p).isSome = true ↔
      ∃ c ∈ calls, ∃ ov, F64.eq c.1 p = true ∧ h0.order c.2 = some ov ∧ ov.Bid = b ∧
        0 < ov.Size := by
    intro b
    rw [I.key_iff_queueAt, queueAt_placeAll (BookInv.init h0) H, queueAt_init,
      List.nil_append, placed_ne_nil_iff]
  have hb := key true
  have ha := key false
  simp only [OrderBook.index, if_true, Bool.false_eq_true, if_false] at hb ha
  rw [hb, ha]

theorem price_in_both_indices_iff_witness :
    placeAll crossHeap NewOrderBook [(100, 0), (100, 1)] =
      some (crossHeapPlaced, crossBookPlaced) ∧
    (((mapGet crossBookPlaced.BidLimits 100).isSome = true ∧
      (mapGet crossBookPlaced.AskLimits 100).isSome = true) ↔
    ((∃ c ∈ [((100 : F64), 0), (100, 1)], ∃ ov,
        F64.eq c.1 100 = true ∧ crossHeap.order c.2 = some ov ∧ ov.Bid = true ∧
          0 < ov.Size) ∧
     (∃ c ∈ [((100 : F64), 0), (100, 1)], ∃ ov,
        F64.eq c.1 100 = true ∧ crossHeap.order c.2 = some ov ∧ ov.Bid = false ∧
          0 < ov.Size))) :=
  ⟨by decide!, price_in_both_indices_iff crossHeap [(100, 0), (100, 1)] crossHeapPlaced
    crossBookPlaced (by decide!) 100⟩

/-- C4, counterexample: on the book holding one bid of 10 at 100, `PlaceOrder` of an ask
of 10 at 100 returns no `Match` (not exactly one), the ask keeps size 10 (not 0), and both
sides of the book then have a level at 100. -/
theorem crossing_ask_not_matched :
    ∃ h1 ob1 h2 ob2 ms, PlaceOrder crossHeap NewOrderBook 100 0 = some (h1, ob1, []) ∧
      PlaceOrder h1 ob1 100 1 = some (h2, ob2, ms) ∧
      ms.length ≠ 1 ∧ h2.sizeOf 1 ≠ 0 ∧
      (mapGet ob2.BidLimits 100).isSome = true ∧ (mapGet ob2.AskLimits 100).isSome = true :=
  ⟨{ orders := [⟨10, true, some 0, 1⟩, ⟨10, false, none, 2⟩], limits := [⟨100, [0], 10⟩] },
   { Asks := [], Bids := [0], AskLimits := [], BidLimits := [(100, 0)] },
   crossHeapPlaced, crossBookPlaced,
   [], by decide!, by decide!, by decide!, by decide!, by decide!, by decide!⟩

/-- C4, as the code has it: for every price `p` and size `s > 0`, on the book obtained
from `NewOrderBook` by placing one bid of size `s` at `p`, `PlaceOrder` of an ask of size
`s` at `p` returns no `Match`; the ask and the bid both keep size `s`; and afterwards both
sides have a level at `p`: the bid level still holds the bid alone with `TotalVolume` `s`,
and a new ask level holds the ask alone with `TotalVolume` `s`. -/
theorem crossing_ask_rests_unmatched (h0 : Heap) (p s : F64) (bid ask : OrderRef)
    (bv av : Order) (hb : h0.order bid = some bv) (ha : h0.order ask = some av)
    (hbb : bv.Bid = true) (hab : av.Bid = false) (hbs : bv.Size = s) (has : av.Size = s)
    (hs : 0 < s) :
    ∃ h1 ob1 h2 ob2 lb la, PlaceOrder h0 NewOrderBook p bid = some (h1, ob1, []) ∧
      PlaceOrder h1 ob1 p ask = some (h2, ob2, []) ∧
      (h2.order ask).map Order.Size = some s ∧ (h2.order bid).map Order.Size = some s ∧
      ob2 = { Asks := [la], Bids := [lb], AskLimits := [(p, la)], BidLimits := [(p, lb)] } ∧
      h2.limit lb = some { Price := p, Orders := [bid], TotalVolume := s } ∧
      h2.limit la = some { Price := p, Orders := [ask], TotalVolume := s } := by
  have hne : ask ≠ bid := by
    intro heq
    rw [heq, hb] at ha
    cases ha
    rw [hbb] at hab
    cases hab
  have hmiss0 : mapGet (NewOrderBook.index bv.Bid) p = none := by
    cases bv.Bid <;> rfl
  obtain ⟨h1, ob1, hp1, ho1, hoth1, hl1, -, hlen1, s1, i1, s1', i1'⟩ :=
    PlaceOrder_miss hb (hbs ▸ hs) hmiss0
  rw [hbb] at s1 i1 s1' i1'
  simp only [Bool.not_true] at s1' i1'
  have I1 : BookInv h1 ob1 := (BookInv.init h0).step hp1
  have ha1 : h1.order ask = some av := by rw [hoth1 ask hne]; exact ha
  have hmiss1 : mapGet (ob1.index av.Bid) p = none := by
    rw [hab]
    exact i1'.symm ▸ rfl
  obtain ⟨h2, ob2, hp2, ho2, hoth2, hl2, hold2, -, s2, i2, s2', i2'⟩ :=
    PlaceOrder_miss ha1 (has ▸ hs) hmiss1
  rw [hab] at s2 i2 s2' i2'
  simp only [Bool.not_false] at s2' i2'
  refine ⟨h1, ob1, h2, ob2, h0.limits.length, h1.limits.length, hp1, hp2, ?_, ?_, ?_, ?_, ?_⟩
  · rw [ho2, ← has]; rfl
  · rw [hoth2 bid (Ne.symm hne), ho1, ← hbs]; rfl
  · apply OrderBook.eq_of_sides
    · exact s2'.trans s1
    · exact s2.trans (by rw [s1']; rfl)
    · exact i2'.trans i1
    · exact i2.trans (by rw [i1']; rfl)
  · rw [hold2 _ (by rw [hlen1]; exact Nat.lt_succ_self _), hl1, hbs]
  · rw [hl2, has]

theorem crossing_ask_rests_unmatched_witness :
    (crossHeap.order 0 = some ⟨10, true, none, 1⟩ ∧
      crossHeap.order 1 = some ⟨10, false, none, 2⟩ ∧ (0 : F64) < 10) ∧
    ∃ h1 ob1 h2 ob2 lb la, PlaceOrder crossHeap NewOrderBook 100 0 = some (h1, ob1, []) ∧
      PlaceOrder h1 ob1 100 1 = some (h2, ob2, []) ∧
      (h2.order 1).map Order.Size = some 10 ∧ (h2.order 0).map Order.Size = some 10 ∧
      ob2 = { Asks := [la], Bids := [lb], AskLimits := [(100, la)],
              BidLimits := [(100, lb)] } ∧
      h2.limit lb = some { Price := 100, Orders := [0], TotalVolume := 10 } ∧
      h2.limit la = some { Price := 100, Orders := [1], TotalVolume := 10 } :=
  ⟨⟨by decide!, by decide!, by decide!⟩,
    crossing_ask_rests_unmatched crossHeap 100 10 0 1 ⟨10, true, none, 1⟩
      ⟨10, false, none, 2⟩ (by decide!) (by decide!) rfl rfl rfl rfl (by decide!)⟩

/-- C5, counterexample: with bids of 5 and 3 resting in that order at 100, `PlaceOrder` of
an ask of 6 at 100 returns an empty match list, so there is no first `Match` against the
bid of 5, and the bid of 3 keeps size 3 instead of 2. -/
theorem queue_head_not_matched :
    ∃ h ob h' ob' ms, placeAll queueHeap NewOrderBook [(100, 0), (100, 1)] = some (h, ob) ∧
      queueAt h ob true 100 = [0, 1] ∧
      PlaceOrder h ob 100 2 = some (h', ob', ms) ∧
      ms.head? = none ∧ h'.sizeOf 1 = 3 ∧ h'.sizeOf 1 ≠ 2 :=
  ⟨queueHeapBids, queueBookBids,
   { orders := [⟨5, true, some 0, 1⟩, ⟨3, true, some 0, 2⟩, ⟨6, false, some 1, 3⟩]
     limits := [⟨100, [0, 1], 8⟩, ⟨100, [2], 6⟩] },
   { Asks := [1], Bids := [0], AskLimits := [(100, 1)], BidLimits := [(100, 0)] },
   [], by decide!, by decide!, by decide!, by decide!, by decide!, by decide!⟩

/-- C5, as the code has it: on every book reached from `NewOrderBook` by `PlaceOrder`
calls, `PlaceOrder` of an ask at any price returns an empty match list and touches no
resting bid: `Bids` and `BidLimits` are unchanged, every bid level keeps its queue (so two
bids `o1`, `o2` resting at one price stay queued in that order) and its `TotalVolume`, and
every order keeps its `Size`. -/
theorem ask_leaves_bid_queues_untouched (h0 : Heap) (calls : List (F64 × OrderRef)) (h : Heap)
    (ob : OrderBook) (H : placeAll h0 NewOrderBook calls = some (h, ob)) (q : F64)
    (a : OrderRef) (av : Order) (ha : h.order a = some av) (hab : av.Bid = false) :
    ∃ h' ob', PlaceOrder h ob q a = some (h', ob', []) ∧
      ob'.Bids = ob.Bids ∧ ob'.BidLimits = ob.BidLimits ∧
      (∀ l ∈ ob.Bids, h'.limit l = h.limit l) ∧
      (∀ o, h'.sizeOf o = h.sizeOf o) := by
  have I : BookInv h ob := (BookInv.init h0).placeAll H
  obtain ⟨h', ob', hplace⟩ := PlaceOrder_total q ha
  refine ⟨h', ob', hplace, ?_⟩
  obtain ⟨-, ov, ho, hcase⟩ := PlaceOrder_effect hplace
  rw [ha] at ho; cases ho
  rcases hcase with ⟨-, rfl, rfl⟩ | ⟨-, l, lv, E⟩
  · exact ⟨rfl, rfl, fun _ _ => rfl, fun _ => rfl⟩
  · have hnb : true ≠ av.Bid := by rw [hab]; decide
    have hside : ob'.Bids = ob.Bids := (E.other_side I hnb).1
    have hindex : ob'.BidLimits = ob.BidLimits := (E.other_side I hnb).2
    refine ⟨hside, hindex, ?_, E.sizeOf_eq⟩
    intro x hx
    have hx' : x ∈ ob.side true := hx
    apply E.limit_other x _ (I.valid true x hx')
    intro hxl
    rcases E.side_cases I with ⟨hmem, -, -, -⟩ | ⟨hn, -⟩
    · rw [← hxl, hab] at hmem
      exact absurd (I.side_unique hx' hmem) (by decide)
    · exact absurd (hxl.trans hn) (Nat.ne_of_lt (I.valid true x hx'))

theorem ask_leaves_bid_queues_untouched_witness :
    (placeAll queueHeap NewOrderBook [(100, 0), (100, 1)] =
        some (queueHeapBids, queueBookBids) ∧
      queueHeapBids.order 2 = some ⟨6, false, none, 3⟩) ∧
    ∃ h' ob', PlaceOrder queueHeapBids queueBookBids 100 2 = some (h', ob', []) ∧
      ob'.Bids = queueBookBids.Bids ∧ ob'.BidLimits = queueBookBids.BidLimits ∧
      (∀ l ∈ queueBookBids.Bids, h'.limit l = queueHeapBids.limit l) ∧
      (∀ o, h'.sizeOf o = queueHeapBids.sizeOf o) :=
  ⟨⟨by decide!, by decide!⟩,
    ask_leaves_bid_queues_untouched queueHeap [(100, 0), (100, 1)] queueHeapBids
      queueBookBids (by decide!) 100 2 ⟨6, false, none, 3⟩ (by decide!) rfl⟩

/-- C14: for every book, price and order whose `Size` is `<= 0`, `PlaceOrder` returns the
empty match list and the memory and the book (`Bids`, `Asks`, `BidLimits`, `AskLimits` and
every level) are exactly as before the call. -/
theorem PlaceOrder_nonpositive_size_no_change (h : Heap) (ob : OrderBook) (price : F64)
    (o : OrderRef) (ov : Order) (ho : h.order o = some ov) (hs : ov.Size ≤ 0) :
    PlaceOrder h ob price o = some (h, ob, []) := by
  unfold PlaceOrder
  rw [ho]
  simp only
  rw [if_neg (F64.not_pos_of_le_zero hs)]

theorem PlaceOrder_nonpositive_size_no_change_witness :
    (Heap.order ⟨[⟨0, true, none, 1⟩, ⟨F64.ofInt (-3), false, none, 2⟩], [⟨100, [], 0⟩]⟩ 1 =
        some ⟨F64.ofInt (-3), false, none, 2⟩ ∧ (⟨F64.ofInt (-3), false, none, 2⟩ : Order).Size ≤ 0) ∧
    PlaceOrder ⟨[⟨0, true, none, 1⟩, ⟨F64.ofInt (-3), false, none, 2⟩], [⟨100, [], 0⟩]⟩
        ⟨[], [0], [], [(100, 0)]⟩ 100 1 =
      some (⟨[⟨0, true, none, 1⟩, ⟨F64.ofInt (-3), false, none, 2⟩], [⟨100, [], 0⟩]⟩,
        ⟨[], [0], [], [(100, 0)]⟩, []) :=
  ⟨⟨by decide!, by decide!⟩,
    PlaceOrder_nonpositive_size_no_change
      ⟨[⟨0, true, none, 1⟩, ⟨F64.ofInt (-3), false, none, 2⟩], [⟨100, [], 0⟩]⟩ ⟨[], [0], [], [(100, 0)]⟩
      100 1 ⟨F64.ofInt (-3), false, none, 2⟩ (by decide!) (by decide!)⟩

/-- C17: `PlaceOrder` never matches.  For every book, every price and every order (crossing
or not), `PlaceOrder` returns an empty `Match` list and the `Size` of every order, incoming
or resting, is as before. -/
theorem PlaceOrder_never_matches (h : Heap) (ob : OrderBook) (price : F64) (o : OrderRef)
    (ov : Order) (ho : h.order o = some ov) :
    ∃ h' ob', PlaceOrder h ob price o = some (h', ob', []) ∧
      ∀ x, (h'.order x).map Order.Size = (h.order x).map Order.Size := by
  obtain ⟨h', ob', hplace⟩ := PlaceOrder_total price ho
  refine ⟨h', ob', hplace, ?_⟩
  obtain ⟨-, ov', -, hcase⟩ := PlaceOrder_effect hplace
  rcases hcase with ⟨-, rfl, -⟩ | ⟨-, l, lv, E⟩
  · exact fun _ => rfl
  · exact E.order_size

theorem PlaceOrder_never_matches_witness :
    queueHeapBids.order 2 = some ⟨6, false, none, 3⟩ ∧
    ∃ h' ob', PlaceOrder queueHeapBids queueBookBids 99 2 = some (h', ob', []) ∧
      ∀ x, (h'.order x).map Order.Size = (queueHeapBids.order x).map Order.Size :=
  ⟨by decide!,
    PlaceOrder_never_matches queueHeapBids queueBookBids 99 2 ⟨6, false, none, 3⟩
      (by decide!)⟩

/-- C15, counterexample: on `NewOrderBook`, `PlaceOrder` of a bid of size 10 at price -5
is not rejected: the book changes, and a bid level at -5 holding the order is created and
indexed. -/
theorem nonpositive_price_not_rejected :
    ∃ h' ob', PlaceOrder crossHeap NewOrderBook (F64.ofInt (-5)) 0 = some (h', ob', []) ∧
      ob' ≠ NewOrderBook ∧ ob'.Bids = [0] ∧ mapGet ob'.BidLimits (F64.ofInt (-5)) = some 0 ∧
      h'.limit 0 = some { Price := F64.ofInt (-5), Orders := [0], TotalVolume := 10 } :=
  ⟨{ orders := [⟨10, true, some 0, 1⟩, ⟨10, false, none, 2⟩]
     limits := [⟨F64.ofInt (-5), [0], 10⟩] },
   { Asks := [], Bids := [0], AskLimits := [], BidLimits := [(F64.ofInt (-5), 0)] },
   by decide!, by decide!, by decide!, by decide!, by decide!⟩

/-- C15, as the code has it: on every book reached from `NewOrderBook` by `PlaceOrder`
calls, `PlaceOrder` of an order of `Size > 0` at a price `<= 0` is handled like any other
price: it returns the empty match list, and afterwards the order's side holds a level at
that price, stored in the side's index under that price, whose queue is the queue that
price had before followed by the order. -/
theorem nonpositive_price_is_placed (h0 : Heap) (calls : List (F64 × OrderRef)) (h : Heap)
    (ob : OrderBook) (H : placeAll h0 NewOrderBook calls = some (h, ob)) (price : F64)
    (o : OrderRef) (ov : Order) (ho : h.order o = some ov) (hpos : 0 < ov.Size)
    (hprice : price ≤ 0) :
    ∃ h' ob' l lv, PlaceOrder h ob price o = some (h', ob', []) ∧
      l ∈ ob'.side ov.Bid ∧ mapGet (ob'.index ov.Bid) price = some l ∧
      h'.limit l = some lv ∧ lv.Price = price ∧
      lv.Orders = queueAt h ob ov.Bid price ++ [o] := by
  have I : BookInv h ob := (BookInv.init h0).placeAll H
  have hself : F64.eq price price = true :=
    F64.eq_iff.mpr ⟨rfl, F64.ne_nan_of_le_zero hprice⟩
  obtain ⟨h', ob', hplace⟩ := PlaceOrder_total price ho
  have I' : BookInv h' ob' := I.step hplace
  obtain ⟨-, ov', ho', hcase⟩ := PlaceOrder_effect hplace
  rw [ho] at ho'; cases ho'
  rcases hcase with ⟨hneg, -, -⟩ | ⟨-, l, lv, E⟩
  · exact absurd hpos hneg
  · have ht := E.target I
    have hget : mapGet (ob'.index ov.Bid) price = some l :=
      (I'.mapGet_iff _ _ _).mpr ⟨ht.1, by rw [ht.2]; exact hself⟩
    have hq := queueAt_add I E ov.Bid price
    rw [if_pos ⟨hself, rfl⟩] at hq
    refine ⟨h', ob', l, _, hplace, ht.1, hget, E.limit_self, ?_, ?_⟩
    · have := ht.2
      rw [priceOf_of_limit E.limit_self] at this
      exact this
    · rw [← hq]
      simp [queueAt, hget, E.limit_self]

theorem nonpositive_price_is_placed_witness :
    (placeAll crossHeap NewOrderBook [] = some (crossHeap, NewOrderBook) ∧
      crossHeap.order 0 = some ⟨10, true, none, 1⟩ ∧
      0 < (⟨10, true, none, 1⟩ : Order).Size ∧ F64.ofInt (-5) ≤ 0) ∧
    ∃ h' ob' l lv, PlaceOrder crossHeap NewOrderBook (F64.ofInt (-5)) 0 = some (h', ob', []) ∧
      l ∈ ob'.side (⟨10, true, none, 1⟩ : Order).Bid ∧
      mapGet (ob'.index (⟨10, true, none, 1⟩ : Order).Bid) (F64.ofInt (-5)) = some l ∧
      h'.limit l = some lv ∧ lv.Price = F64.ofInt (-5) ∧
      lv.Orders =
        queueAt crossHeap NewOrderBook (⟨10, true, none, 1⟩ : Order).Bid (F64.ofInt (-5)) ++
          [0] :=
  ⟨⟨by decide!, by decide!, by decide!, by decide!⟩,
    nonpositive_price_is_placed crossHeap [] crossHeap NewOrderBook (by decide!)
      (F64.ofInt (-5)) 0 ⟨10, true, none, 1⟩ (by decide!) (by decide!) (by decide!)⟩

/-- C19, counterexample: two books that `PlaceOrder` cannot have built.  In the first,
`BidLimits` holds the bid level of price 200 under the keys 200 and 100: `PlaceOrder` of a
bid of size 7 at 100 queues the order on that level and raises its `TotalVolume`, though
its price is not 100.  In the second, `BidLimits` holds under 100 the level that is in
`Asks`: `PlaceOrder` of a bid at 100 changes the queue and `TotalVolume` of that ask
level. -/
theorem PlaceOrder_changes_aliased_level :
    (∃ h' ob', PlaceOrder aliasHeap ⟨[], [0], [], [(200, 0), (100, 0)]⟩ 100 1 =
        some (h', ob', []) ∧
      aliasHeap.order 1 = some ⟨7, true, none, 2⟩ ∧
      aliasHeap.limit 0 = some ⟨200, [0], 5⟩ ∧ h'.limit 0 = some ⟨200, [0, 1], 12⟩) ∧
    (∃ h' ob', PlaceOrder aliasHeap ⟨[0], [], [(200, 0)], [(100, 0)]⟩ 100 1 =
        some (h', ob', []) ∧
      ob'.Asks = [0] ∧
      aliasHeap.limit 0 = some ⟨200, [0], 5⟩ ∧ h'.limit 0 = some ⟨200, [0, 1], 12⟩) :=
  ⟨⟨⟨[⟨5, true, some 0, 1⟩, ⟨7, true, some 0, 2⟩], [⟨200, [0, 1], 12⟩]⟩,
      ⟨[], [0], [], [(200, 0), (100, 0)]⟩, by decide!, by decide!, by decide!, by decide!⟩,
    ⟨⟨[⟨5, true, some 0, 1⟩, ⟨7, true, some 0, 2⟩], [⟨200, [0, 1], 12⟩]⟩,
      ⟨[0], [], [(200, 0)], [(100, 0)]⟩, by decide!, by decide!, by decide!, by decide!⟩⟩

/-- C19, as the code has it: on every book reached from `NewOrderBook` by `PlaceOrder`
calls, `PlaceOrder` of a positive-size order of side `b` (`true`: bid) at price `p` changes
nothing but the level of side `b` at `p`: the slice and index of the other side and
every level of the other side are unchanged, the old slice of side `b` is a prefix of the
new one (every level keeps its position), and every level of side `b` at a price other
than `p` (a price that is not `==` `p`) keeps its price, queue and `TotalVolume`. -/
theorem PlaceOrder_frame (h0 : Heap) (calls : List (F64 × OrderRef)) (h : Heap)
    (ob : OrderBook) (H : placeAll h0 NewOrderBook calls = some (h, ob)) (p : F64)
    (o : OrderRef) (ov : Order) (ho : h.order o = some ov) (hpos : 0 < ov.Size) :
    ∃ h' ob', PlaceOrder h ob p o = some (h', ob', []) ∧
      ob'.side (!ov.Bid) = ob.side (!ov.Bid) ∧ ob'.index (!ov.Bid) = ob.index (!ov.Bid) ∧
      (∀ l ∈ ob.side (!ov.Bid), h'.limit l = h.limit l) ∧
      ob.side ov.Bid <+: ob'.side ov.Bid ∧
      (∀ l ∈ ob.side ov.Bid, F64.eq (h.priceOf l) p = false → h'.limit l = h.limit l) := by
  have I : BookInv h ob := (BookInv.init h0).placeAll H
  obtain ⟨h', ob', hplace⟩ := PlaceOrder_total p ho
  obtain ⟨-, ov', ho', hcase⟩ := PlaceOrder_effect hplace
  rw [ho] at ho'; cases ho'
  rcases hcase with ⟨hneg, -, -⟩ | ⟨-, l, lv, E⟩
  · exact absurd hpos hneg
  · have hnb : (!ov.Bid) ≠ ov.Bid := by cases ov.Bid <;> decide
    obtain ⟨hs, hi⟩ := E.other_side I hnb
    refine ⟨h', ob', hplace, hs, hi, fun x hx => E.limit_frame I hx (Or.inl hnb), ?_,
      fun x hx hpx => E.limit_frame I hx (Or.inr hpx)⟩
    rw [I.step_side hplace ho ov.Bid]
    exact List.prefix_append _ _

theorem PlaceOrder_frame_witness :
    (placeAll testHeap NewOrderBook [(17000, 2)] = some (lowBidHeap, lowBidBook) ∧
      lowBidHeap.order 0 = some ⟨10, true, none, 1⟩ ∧
      0 < (⟨10, true, none, 1⟩ : Order).Size) ∧
    ∃ h' ob', PlaceOrder lowBidHeap lowBidBook 18000 0 = some (h', ob', []) ∧
      ob'.side (!(⟨10, true, none, 1⟩ : Order).Bid) =
        lowBidBook.side (!(⟨10, true, none, 1⟩ : Order).Bid) ∧
      ob'.index (!(⟨10, true, none, 1⟩ : Order).Bid) =
        lowBidBook.index (!(⟨10, true, none, 1⟩ : Order).Bid) ∧
      (∀ l ∈ lowBidBook.side (!(⟨10, true, none, 1⟩ : Order).Bid),
        h'.limit l = lowBidHeap.limit l) ∧
      lowBidBook.side (⟨10, true, none, 1⟩ : Order).Bid <+:
        ob'.side (⟨10, true, none, 1⟩ : Order).Bid ∧
      (∀ l ∈ lowBidBook.side (⟨10, true, none, 1⟩ : Order).Bid,
        F64.eq (lowBidHeap.priceOf l) 18000 = false → h'.limit l = lowBidHeap.limit l) :=
  ⟨⟨by decide!, by decide!, by decide!⟩,
    PlaceOrder_frame testHeap [(17000, 2)] lowBidHeap lowBidBook (by decide!) 18000 0
      ⟨10, true, none, 1⟩ (by decide!) (by decide!)⟩

/-- C11, counterexample: a level queues orders of sizes `10^16` and 1 and has `TotalVolume`
`10^16` (what two `AddOrder` calls leave); `DeleteOrder` of the order of size 1 removes it
from the queue and leaves `TotalVolume` at `10^16`, since `float64` has no value
`10^16 - 1`: the volume has not decreased by the order's `Size`. -/
theorem DeleteOrder_volume_rounds :
    ∃ h', DeleteOrder sortByTimestamp
        ⟨[⟨10000000000000000, true, some 0, 1⟩, ⟨1, true, some 0, 2⟩],
         [⟨100, [0, 1], 10000000000000000⟩]⟩ 0 1 = some h' ∧
      h'.queueOf 0 = [0] ∧ h'.volumeOf 0 = 10000000000000000 ∧
      (h'.volumeOf 0).units ≠ (10000000000000000 : F64).units - (1 : F64).units :=
  ⟨⟨[⟨10000000000000000, true, some 0, 1⟩, ⟨1, true, none, 2⟩],
     [⟨100, [0], 10000000000000000⟩]⟩, by decide!, by decide!, by decide!, by decide!⟩

/-- C11, as the code has it: for every level whose queue contains the order `o` exactly
once (all queued pointers addressing orders), and every `sort.Sort` meeting its contract,
`DeleteOrder` returns; afterwards `o` is not in the queue, the queue is a rearrangement of
the old queue with `o` erased (one shorter, every other order kept), `TotalVolume` is the
`float64` difference of the old `TotalVolume` and the order's `Size` (the exact difference
rounded to the nearest `float64`), the `Price` is unchanged and the order's `Limit`
back-reference is nil. -/
theorem DeleteOrder_removes_the_order
    (sort : (OrderRef → Int) → List OrderRef → List OrderRef) (hs : SortContract sort)
    (h : Heap) (l : LimitRef) (o : OrderRef) (lv : Limit) (ov : Order)
    (hl : h.limit l = some lv) (ho : h.order o = some ov)
    (hq : ∀ x ∈ lv.Orders, (h.order x).isSome = true) (hc : lv.Orders.count o = 1) :
    ∃ h' lv', DeleteOrder sort h l o = some h' ∧ h'.limit l = some lv' ∧
      o ∉ lv'.Orders ∧ lv'.Orders.Perm (lv.Orders.erase o) ∧
      lv'.Orders.length + 1 = lv.Orders.length ∧
      lv'.TotalVolume = lv.TotalVolume - ov.Size ∧ lv'.Price = lv.Price ∧
      h'.order o = some { Size := ov.Size, Bid := ov.Bid, Limit := none,
                          Timestamp := ov.Timestamp } := by
  obtain ⟨h', q', hdel, hlim, hperm, -, hord, -⟩ := DeleteOrder_once sort hs hl ho hq hc
  have hmem : o ∈ lv.Orders := List.count_pos_iff.mp (by omega)
  refine ⟨h', _, hdel, hlim, ?_, hperm, ?_, rfl, rfl, hord⟩
  · intro hin
    have h1 : 0 < (lv.Orders.erase o).count o :=
      List.count_pos_iff.mpr (hperm.mem_iff.mp hin)
    rw [List.count_erase_self, hc] at h1
    exact absurd h1 (by decide)
  · simp only
    rw [hperm.length_eq, List.length_erase_of_mem hmem]
    have := List.length_pos_of_mem hmem
    omega

theorem DeleteOrder_removes_the_order_witness :
    (SortContract sortByTimestamp ∧
      limitHeap.limit 0 = some ⟨10000, [0, 1, 2], 23⟩ ∧
      limitHeap.order 1 = some ⟨8, true, some 0, 2⟩ ∧
      (∀ x ∈ [(0 : OrderRef), 1, 2], (limitHeap.order x).isSome = true) ∧
      [(0 : OrderRef), 1, 2].count 1 = 1 ∧
      DeleteOrder sortByTimestamp limitHeap 0 1 =
        some ⟨[⟨5, true, some 0, 1⟩, ⟨8, true, none, 2⟩, ⟨10, true, some 0, 3⟩],
              [⟨10000, [0, 2], 15⟩]⟩ ∧
      (23 : F64) - 8 = 15) ∧
    ∃ h' lv', DeleteOrder sortByTimestamp limitHeap 0 1 = some h' ∧ h'.limit 0 = some lv' ∧
      1 ∉ lv'.Orders ∧ lv'.Orders.Perm ([(0 : OrderRef), 1, 2].erase 1) ∧
      lv'.Orders.length + 1 = [(0 : OrderRef), 1, 2].length ∧
      lv'.TotalVolume = 23 - 8 ∧ lv'.Price = 10000 ∧
      h'.order 1 = some { Size := 8, Bid := true, Limit := none, Timestamp := 2 } :=
  ⟨⟨sortByTimestamp_contract, by decide!, by decide!, by decide!, by decide!, by decide!,
      by decide!⟩,
    DeleteOrder_removes_the_order sortByTimestamp sortByTimestamp_contract limitHeap 0 1
      ⟨10000, [0, 1, 2], 23⟩ ⟨8, true, some 0, 2⟩ (by decide!) (by decide!) (by decide!)
      (by decide!)⟩

/-- C12, counterexample: deleting from a level (queue 0, 1, 2, volume 23) an order of size
7 that is not in its queue returns normally, reorders the queue to 1, 2, 0 and lowers
`TotalVolume` to 16; and deleting the order of size 8 from the level of sizes 5, 8, 10 a
second time returns normally again and takes its size off `TotalVolume` a second time
(23, then 15, then 7). -/
theorem delete_absent_order_changes_level :
    (3 ∉ [(0 : OrderRef), 1, 2] ∧ lateHeap.limit 0 = some ⟨10000, [0, 1, 2], 23⟩ ∧
      ∃ h', DeleteOrder sortByTimestamp lateHeap 0 3 = some h' ∧
        h'.limit 0 = some ⟨10000, [1, 2, 0], 16⟩) ∧
    (limitHeap.limit 0 = some ⟨10000, [0, 1, 2], 23⟩ ∧
      ∃ h1 h2, DeleteOrder sortByTimestamp limitHeap 0 1 = some h1 ∧
        h1.limit 0 = some ⟨10000, [0, 2], 15⟩ ∧
        DeleteOrder sortByTimestamp h1 0 1 = some h2 ∧
        h2.limit 0 = some ⟨10000, [0, 2], 7⟩) :=
  ⟨⟨by decide!, by decide!,
      ⟨[⟨5, true, some 0, 3⟩, ⟨8, true, some 0, 1⟩, ⟨10, true, some 0, 2⟩, ⟨7, true, none, 4⟩],
        [⟨10000, [1, 2, 0], 16⟩]⟩, by decide!, by decide!⟩,
    by decide!,
    ⟨[⟨5, true, some 0, 1⟩, ⟨8, true, none, 2⟩, ⟨10, true, some 0, 3⟩], [⟨10000, [0, 2], 15⟩]⟩,
    ⟨[⟨5, true, some 0, 1⟩, ⟨8, true, none, 2⟩, ⟨10, true, some 0, 3⟩], [⟨10000, [0, 2], 7⟩]⟩,
    by decide!, by decide!, by decide!, by decide!⟩

/-- C12, as the code has it: for every level and every order `o` that is not in its queue
(all pointers addressing orders) and every `sort.Sort` meeting its contract, `DeleteOrder`
returns normally, removes no order (the queue afterwards is a rearrangement of the
queue before, in nondecreasing `Timestamp` order), keeps the `Price`, and sets the order's
`Limit` back-reference to nil. -/
theorem DeleteOrder_absent_keeps_members
    (sort : (OrderRef → Int) → List OrderRef → List OrderRef) (hs : SortContract sort)
    (h : Heap) (l : LimitRef) (o : OrderRef) (lv : Limit) (ov : Order)
    (hl : h.limit l = some lv) (ho : h.order o = some ov)
    (hq : ∀ x ∈ lv.Orders, (h.order x).isSome = true) (hno : o ∉ lv.Orders) :
    ∃ h' lv', DeleteOrder sort h l o = some h' ∧ h'.limit l = some lv' ∧
      lv'.Orders.Perm lv.Orders ∧
      lv'.Orders.Pairwise (fun a b => h'.tsOf a ≤ h'.tsOf b) ∧
      lv'.Price = lv.Price ∧
      h'.order o = some { Size := ov.Size, Bid := ov.Bid, Limit := none,
                          Timestamp := ov.Timestamp } := by
  obtain ⟨h', hdel, hlim, hord, -, -, hts, -⟩ :=
    DeleteOrder_effect sort hl ho (deleteLoop_of_not_mem hno) hq
  refine ⟨h', _, hdel, hlim, (hs _ _).1, ?_, rfl, hord⟩
  rw [hts]
  exact (hs _ _).2

theorem DeleteOrder_absent_keeps_members_witness :
    (SortContract sortByTimestamp ∧
      lateHeap.limit 0 = some ⟨10000, [0, 1, 2], 23⟩ ∧
      lateHeap.order 3 = some ⟨7, true, none, 4⟩ ∧
      (∀ x ∈ [(0 : OrderRef), 1, 2], (lateHeap.order x).isSome = true) ∧
      3 ∉ [(0 : OrderRef), 1, 2]) ∧
    ∃ h' lv', DeleteOrder sortByTimestamp lateHeap 0 3 = some h' ∧ h'.limit 0 = some lv' ∧
      lv'.Orders.Perm [0, 1, 2] ∧
      lv'.Orders.Pairwise (fun a b => h'.tsOf a ≤ h'.tsOf b) ∧
      lv'.Price = 10000 ∧
      h'.order 3 = some { Size := 7, Bid := true, Limit := none, Timestamp := 4 } :=
  ⟨⟨sortByTimestamp_contract, by decide!, by decide!, by decide!, by decide!⟩,
    DeleteOrder_absent_keeps_members sortByTimestamp sortByTimestamp_contract lateHeap 0 3
      ⟨10000, [0, 1, 2], 23⟩ ⟨7, true, none, 4⟩ (by decide!) (by decide!) (by decide!)
      (by decide!)⟩

/-- C13, counterexample: a level queues the orders 0, 1, 2, created in the order 1, 2, 0
(`Timestamp`s 3, 1, 2); deleting the order 2 at the tail leaves the queue 1, 0, which is
not the old queue with the order erased (0, 1): the remaining orders have changed
places. -/
theorem delete_reorders_remaining :
    lateHeap.limit 0 = some ⟨10000, [0, 1, 2], 23⟩ ∧
    ∃ h' lv', DeleteOrder sortByTimestamp lateHeap 0 2 = some h' ∧ h'.limit 0 = some lv' ∧
      lv'.Orders = [1, 0] ∧ lv'.Orders ≠ [(0 : OrderRef), 1, 2].erase 2 :=
  ⟨by decide!,
    ⟨[⟨5, true, some 0, 3⟩, ⟨8, true, some 0, 1⟩, ⟨10, true, none, 2⟩, ⟨7, true, none, 4⟩],
      [⟨10000, [1, 0], 13⟩]⟩,
    ⟨10000, [1, 0], 13⟩, by decide!, by decide!, by decide!, by decide!⟩

/-- C13, as the code has it: for every level and every order `o` occurring once in its
queue (all pointers addressing orders) and every `sort.Sort` meeting its contract, the
queue after `DeleteOrder` holds exactly the orders of the queue before with `o` erased,
arranged in nondecreasing `Timestamp` order. -/
theorem DeleteOrder_sorts_remaining
    (sort : (OrderRef → Int) → List OrderRef → List OrderRef) (hs : SortContract sort)
    (h : Heap) (l : LimitRef) (o : OrderRef) (lv : Limit) (ov : Order)
    (hl : h.limit l = some lv) (ho : h.order o = some ov)
    (hq : ∀ x ∈ lv.Orders, (h.order x).isSome = true) (hc : lv.Orders.count o = 1) :
    ∃ h' lv', DeleteOrder sort h l o = some h' ∧ h'.limit l = some lv' ∧
      lv'.Orders.Perm (lv.Orders.erase o) ∧
      lv'.Orders.Pairwise (fun a b => h'.tsOf a ≤ h'.tsOf b) := by
  obtain ⟨h', q', hdel, hlim, hperm, hsorted, -, -⟩ := DeleteOrder_once sort hs hl ho hq hc
  exact ⟨h', _, hdel, hlim, hperm, hsorted⟩

theorem DeleteOrder_sorts_remaining_witness :
    (SortContract sortByTimestamp ∧
      lateHeap.limit 0 = some ⟨10000, [0, 1, 2], 23⟩ ∧
      lateHeap.order 2 = some ⟨10, true, some 0, 2⟩ ∧
      (∀ x ∈ [(0 : OrderRef), 1, 2], (lateHeap.order x).isSome = true) ∧
      [(0 : OrderRef), 1, 2].count 2 = 1) ∧
    ∃ h' lv', DeleteOrder sortByTimestamp lateHeap 0 2 = some h' ∧ h'.limit 0 = some lv' ∧
      lv'.Orders.Perm ([(0 : OrderRef), 1, 2].erase 2) ∧
      lv'.Orders.Pairwise (fun a b => h'.tsOf a ≤ h'.tsOf b) :=
  ⟨⟨sortByTimestamp_contract, by decide!, by decide!, by decide!, by decide!⟩,
    DeleteOrder_sorts_remaining sortByTimestamp sortByTimestamp_contract lateHeap 0 2
      ⟨10000, [0, 1, 2], 23⟩ ⟨10, true, some 0, 2⟩ (by decide!) (by decide!) (by decide!)
      (by decide!)⟩

/-- C18: for every level whose queue has strictly increasing `Timestamp`s from head to
tail (all pointers addressing orders), every order `o` in that queue and every `sort.Sort`
meeting its contract, `DeleteOrder` returns, the queue afterwards equals the queue before
with `o` erased, and its `Timestamp`s are still strictly increasing. -/
theorem DeleteOrder_restores_fifo
    (sort : (OrderRef → Int) → List OrderRef → List OrderRef) (hs : SortContract sort)
    (h : Heap) (l : LimitRef) (o : OrderRef) (lv : Limit) (ov : Order)
    (hl : h.limit l = some lv) (ho : h.order o = some ov)
    (hq : ∀ x ∈ lv.Orders, (h.order x).isSome = true)
    (hinc : lv.Orders.Pairwise (fun a b => h.tsOf a < h.tsOf b)) (hmem : o ∈ lv.Orders) :
    ∃ h' lv', DeleteOrder sort h l o = some h' ∧ h'.limit l = some lv' ∧
      lv'.Orders = lv.Orders.erase o ∧
      lv'.Orders.Pairwise (fun a b => h'.tsOf a < h'.tsOf b) := by
  have hnd : lv.Orders.Nodup := hinc.imp (fun hab heq => by simp [heq] at hab)
  have hc : lv.Orders.count o = 1 := List.count_eq_one_of_mem hnd hmem
  obtain ⟨h', q', hdel, hlim, hperm, hsorted, -, hts⟩ := DeleteOrder_once sort hs hl ho hq hc
  have herase : (lv.Orders.erase o).Pairwise (fun a b => h.tsOf a < h.tsOf b) :=
    hinc.sublist (List.erase_sublist o lv.Orders)
  rw [hts] at hsorted
  have heq : q' = lv.Orders.erase o := eq_of_perm_of_increasing h.tsOf hperm hsorted herase
  refine ⟨h', _, hdel, hlim, heq, ?_⟩
  rw [hts]
  simp only
  rw [heq]
  exact herase

theorem DeleteOrder_restores_fifo_witness :
    (SortContract sortByTimestamp ∧
      limitHeap.limit 0 = some ⟨10000, [0, 1, 2], 23⟩ ∧
      limitHeap.order 0 = some ⟨5, true, some 0, 1⟩ ∧
      (∀ x ∈ [(0 : OrderRef), 1, 2], (limitHeap.order x).isSome = true) ∧
      [(0 : OrderRef), 1, 2].Pairwise (fun a b => limitHeap.tsOf a < limitHeap.tsOf b) ∧
      0 ∈ [(0 : OrderRef), 1, 2] ∧
      deleteLoop 0 3 0 [0, 1, 2] = some [2, 1]) ∧
    ∃ h' lv', DeleteOrder sortByTimestamp limitHeap 0 0 = some h' ∧ h'.limit 0 = some lv' ∧
      lv'.Orders = [(0 : OrderRef), 1, 2].erase 0 ∧
      lv'.Orders.Pairwise (fun a b => h'.tsOf a < h'.tsOf b) :=
  ⟨⟨sortByTimestamp_contract, by decide!, by decide!, by decide!, by decide!, by decide!,
      by decide!⟩,
    DeleteOrder_restores_fifo sortByTimestamp sortByTimestamp_contract limitHeap 0 0
      ⟨10000, [0, 1, 2], 23⟩ ⟨5, true, some 0, 1⟩ (by decide!) (by decide!) (by decide!)
      (by decide!) (by decide!)⟩

/-- C16, counterexample: on a fresh level, `AddOrder` of an order of size `10^16`, then of
an order of size 1 (the volume stays `10^16`), then `DeleteOrder` of the first order: the
volume is `10^16 - 10^16 = 0` while the order of size 1 is still queued.  `DeleteOrder` of
that order then leaves an empty queue with volume -1. -/
theorem rounded_volume_zero_not_iff_empty :
    (∃ lv, LevelReach sortByTimestamp 0 (NewLimit bigHeap 100).1 bigHeap3 ∧
      bigHeap3.limit 0 = some lv ∧ F64.eq lv.TotalVolume 0 = true ∧ lv.Orders = [1]) ∧
    (∃ lv, LevelReach sortByTimestamp 0 (NewLimit bigHeap 100).1 bigHeap4 ∧
      bigHeap4.limit 0 = some lv ∧ F64.eq lv.TotalVolume 0 = false ∧ lv.Orders = []) :=
  have r1 : LevelReach sortByTimestamp 0 (NewLimit bigHeap 100).1 bigHeap1 :=
    @LevelReach.add sortByTimestamp 0 (NewLimit bigHeap 100).1 (NewLimit bigHeap 100).1
      bigHeap1 0 ⟨10000000000000000, true, none, 1⟩ LevelReach.start
      (by decide!) (by decide!) (by decide!) (by decide!)
  have r2 : LevelReach sortByTimestamp 0 (NewLimit bigHeap 100).1 bigHeap2 :=
    @LevelReach.add sortByTimestamp 0 (NewLimit bigHeap 100).1 bigHeap1 bigHeap2 1
      ⟨1, true, none, 2⟩ r1 (by decide!) (by decide!) (by decide!) (by decide!)
  have r3 : LevelReach sortByTimestamp 0 (NewLimit bigHeap 100).1 bigHeap3 :=
    @LevelReach.delete sortByTimestamp 0 (NewLimit bigHeap 100).1 bigHeap2 bigHeap3 0 r2
      (by decide!) (by decide!)
  have r4 : LevelReach sortByTimestamp 0 (NewLimit bigHeap 100).1 bigHeap4 :=
    @LevelReach.delete sortByTimestamp 0 (NewLimit bigHeap 100).1 bigHeap3 bigHeap4 1 r3
      (by decide!) (by decide!)
  ⟨⟨⟨100, [1], 0⟩, r3, by decide!, by decide!, by decide!⟩,
    ⟨⟨100, [], F64.ofInt (-1)⟩, r4, by decide!, by decide!, by decide!⟩⟩

/-- C16, as the code has it: for every level reached from `NewLimit` by `AddOrder` calls
with positive-size orders not yet queued and `DeleteOrder` calls on queued orders (every
`sort.Sort` meeting its contract), provided no `+=` and no `-=` on `TotalVolume` along the
way rounds (each gives the exact sum or difference, a finite `float64`): the level is in
memory and its `TotalVolume == 0` if and only if its queue is empty. -/
theorem exact_volume_zero_iff_empty
    (sort : (OrderRef → Int) → List OrderRef → List OrderRef) (hs : SortContract sort)
    (h0 : Heap) (price : F64) (h : Heap)
    (R : LevelReachExact sort h0.limits.length (NewLimit h0 price).1 h) :
    ∃ lv, h.limit h0.limits.length = some lv ∧
      (F64.eq lv.TotalVolume 0 = true ↔ lv.Orders = []) := by
  obtain ⟨lv, hl, -, hval, hfin, hvol⟩ := R.volume_is_sum hs
  refine ⟨lv, hl, ?_⟩
  rw [F64.eq_zero_iff hfin, hvol]
  constructor
  · intro hzero
    by_contra hne
    have hpos : 0 < (lv.Orders.map (fun x => (h.sizeOf x).units)).sum := by
      apply List.sum_pos
      · intro x hx
        obtain ⟨y, hy, rfl⟩ := List.mem_map.mp hx
        exact (hval y hy).2
      · simpa using hne
    omega
  · intro hnil
    rw [hnil]
    rfl

theorem exact_volume_zero_iff_empty_witness :
    (SortContract sortByTimestamp ∧
      LevelReachExact sortByTimestamp pairHeap.limits.length (NewLimit pairHeap 100).1
        pairHeap3) ∧
    ∃ lv, pairHeap3.limit pairHeap.limits.length = some lv ∧
      (F64.eq lv.TotalVolume 0 = true ↔ lv.Orders = []) :=
  have r1 : LevelReachExact sortByTimestamp pairHeap.limits.length (NewLimit pairHeap 100).1
      pairHeap1 :=
    @LevelReachExact.add sortByTimestamp 0 (NewLimit pairHeap 100).1 (NewLimit pairHeap 100).1
      pairHeap1 0 ⟨5, true, none, 1⟩ LevelReachExact.start
      (by decide!) (by decide!) (by decide!) (by decide!) (by decide!)
  have r2 : LevelReachExact sortByTimestamp pairHeap.limits.length (NewLimit pairHeap 100).1
      pairHeap2 :=
    @LevelReachExact.add sortByTimestamp 0 (NewLimit pairHeap 100).1 pairHeap1 pairHeap2 1
      ⟨8, true, none, 2⟩ r1 (by decide!) (by decide!) (by decide!) (by decide!) (by decide!)
  have r3 : LevelReachExact sortByTimestamp pairHeap.limits.length (NewLimit pairHeap 100).1
      pairHeap3 :=
    @LevelReachExact.delete sortByTimestamp 0 (NewLimit pairHeap 100).1 pairHeap2 pairHeap3 0
      r2 (by decide!) (by decide!) (by decide!)
  ⟨⟨sortByTimestamp_contract, r3⟩,
    exact_volume_zero_iff_empty sortByTimestamp sortByTimestamp_contract pairHeap 100
      pairHeap3 r3⟩

end OB
